import Mathlib

/-!
Shallow embedding of the block-tree / state engine of a proof-of-work
account-model cryptocurrency node (Rust sources under src/: blockchain.rs,
state.rs, block.rs, transaction.rs, miner.rs, network/message.rs,
crypto/merkle.rs), together with proofs about the engine's invariants and
operations.

Modelling conventions:
- `H256` (crypto/hash.rs is not part of the given sources) is modelled from
  the spec: a 32-byte value totally ordered by big-endian lexicographic
  comparison; that order is exactly the numeric order of the value read as a
  big-endian integer, so we identify an H256 with that number.  The all-zero
  hash is 0, the least element.
- `H160` (crypto/address.rs is not part of the given sources) is modelled
  from the spec as a 20-byte value; only equality of addresses matters to the
  engine, so it is identified with an abstract numeric code.
- SHA-256, Ed25519 and the deterministic keypair derivation are external
  cryptographic primitives (the spec places them out of scope); they are
  abstracted into a `Crypto` record of opaque-to-the-engine functions over
  which all theorems quantify.
- Rust `HashMap`s are modelled as association lists with lookup/insert/erase
  helpers; `insert` replaces any previous binding of the key, as the Rust
  `HashMap::insert` does.  No engine behaviour proved here depends on the
  iteration order of a map.
- u32/u64 additions that the Rust code performs unchecked are modelled with
  an explicit wrap (mod 2^32 / mod 2^64); subtractions are guarded by the
  balance check in the source and cannot underflow.  Block heights, which
  grow by one per inserted block, are modelled as unbounded naturals.
-/

namespace Btc

abbrev H256 : Type := Nat

abbrev H160 : Type := Nat

/-- Association-list lookup, first binding wins (models HashMap::get). -/
def lookupA {α β : Type} [DecidableEq α] : List (α × β) → α → Option β
  | [], _ => none
  | (k, v) :: rest, key => if key = k then some v else lookupA rest key

/-- Remove every binding of a key (models HashMap::remove's effect on the map). -/
def eraseA {α β : Type} [DecidableEq α] : List (α × β) → α → List (α × β)
  | [], _ => []
  | p :: rest, k => if p.1 = k then eraseA rest k else p :: eraseA rest k

/-- Insert a binding, replacing any previous one (models HashMap::insert). -/
def insertA {α β : Type} [DecidableEq α] (m : List (α × β)) (k : α) (v : β) : List (α × β) :=
  (k, v) :: eraseA m k

/-- transaction.rs: RawTransaction. -/
structure RawTransaction where
  from_addr : H160
  to_addr : H160
  value : Nat
  nonce : Nat
deriving DecidableEq, Repr

/-- transaction.rs: SignedTransaction.  The pubkey and signature byte strings
are opaque to the engine and modelled as numeric codes. -/
structure SignedTransaction where
  raw_transaction : RawTransaction
  pub_key : Nat
  signature : Nat
deriving DecidableEq, Repr

/-- block.rs: Header. -/
structure Header where
  parent : H256
  nonce : Nat
  difficulty : H256
  timestamp : Nat
  merkle_root : H256
deriving DecidableEq, Repr

/-- block.rs: Content.  Its `transactions` field is the ordered list of
signed transactions (blockchain.rs reads `signed.raw_transaction` from its
elements). -/
structure Content where
  transactions : List SignedTransaction
deriving DecidableEq, Repr

/-- block.rs: Block. -/
structure Block where
  header : Header
  content : Content
deriving DecidableEq, Repr

/-- Modelled from the spec: the external cryptographic primitives (SHA-256
hashing of the bincode serializations, Ed25519 verification, and the
address/keypair derivations of crypto/hash.rs, crypto/address.rs and
key_pair.rs, which are outside the given engine sources).  Every theorem
quantifies over an arbitrary such record unless it exhibits a concrete
counterexample. -/
structure Crypto where
  hashBlock : Block → H256
  hashTx : SignedTransaction → H256
  ed25519Verify : Nat → RawTransaction → Nat → Bool
  h160FromPubkey : Nat → H160
  deterministicPubkey : Nat → Nat

/-- block.rs: default_difficulty, the all-zero 32-byte big-endian integer. -/
def default_difficulty : H256 := 0

/-- block.rs: Block::genesis (parent, nonce, timestamp, merkle_root all
zero/default, difficulty fixed, no transactions). -/
def Block.genesis : Block :=
  { header :=
      { parent := 0
        nonce := 0
        difficulty := default_difficulty
        timestamp := 0
        merkle_root := 0 }
    content := { transactions := [] } }

/-- transaction.rs: SignedTransaction::verify_signature — the Ed25519
signature must verify the serialized raw transaction under pub_key, and the
address derived from pub_key must equal the raw transaction's from address. -/
def SignedTransaction.verify_signature (C : Crypto) (tx : SignedTransaction) : Bool :=
  C.ed25519Verify tx.pub_key tx.raw_transaction tx.signature &&
    decide (C.h160FromPubkey tx.pub_key = tx.raw_transaction.from_addr)

/-- state.rs: AccountInfo. -/
structure AccountInfo where
  nonce : Nat
  balance : Nat
deriving DecidableEq, Repr

/-- state.rs: AccountInfo::new. -/
def AccountInfo.new : AccountInfo := { nonce := 0, balance := 0 }

/-- state.rs: State. -/
structure State where
  pub_key_to_acc_info : List (H160 × AccountInfo)
deriving DecidableEq, Repr

/-- state.rs: State::ico — ten deterministic accounts, account i getting
balance 1000 * (10 - i) and nonce 0. -/
def State.ico (C : Crypto) : State :=
  { pub_key_to_acc_info :=
      (List.range 10).foldl
        (fun m i =>
          insertA m (C.h160FromPubkey (C.deterministicPubkey i))
            { nonce := 0, balance := 1000 * (10 - i) })
        [] }

/-- state.rs: State::check_transaction_validity — sender exists, its nonce
equals the transaction's, and its balance covers the value. -/
def State.check_transaction_validity (s : State) (t : RawTransaction) : Bool :=
  match lookupA s.pub_key_to_acc_info t.from_addr with
  | none => false
  | some spender =>
      decide (spender.nonce = t.nonce) && decide (t.value ≤ spender.balance)

/-- state.rs: State::update_in_place.  On failure the state is returned
untouched with `false`.  On success the sender's nonce is bumped (u32 wrap)
and debited, then the receiver (default-inserted if absent — which, for a
self-transfer, is the just-updated sender entry) is credited (u64 wrap). -/
def State.update_in_place (s : State) (t : RawTransaction) : State × Bool :=
  match lookupA s.pub_key_to_acc_info t.from_addr with
  | none => (s, false)
  | some spender =>
      if ¬ spender.nonce = t.nonce then (s, false)
      else if spender.balance < t.value then (s, false)
      else
        let m1 := insertA s.pub_key_to_acc_info t.from_addr
          { nonce := (spender.nonce + 1) % 2 ^ 32, balance := spender.balance - t.value }
        let receiver := (lookupA m1 t.to_addr).getD AccountInfo.new
        let m2 := insertA m1 t.to_addr
          { nonce := receiver.nonce, balance := (receiver.balance + t.value) % 2 ^ 64 }
        (⟨m2⟩, true)

/-- state.rs: State::update_with_transactions — apply the transactions in
order to a copy of the state; `none` if any application fails. -/
def State.update_with_transactions (s : State) : List RawTransaction → Option State
  | [] => some s
  | t :: rest =>
      match s.update_in_place t with
      | (s1, true) => s1.update_with_transactions rest
      | (_, false) => none

/-- blockchain.rs: Blockchain.  `hash_to_block` maps a block's hash to the
block, its height, and the ledger state after applying it. -/
structure Blockchain where
  hash_to_block : List (H256 × (Block × Nat × State))
  tip : H256
  orphanage : List (H256 × List Block)
  mempool : List (H256 × SignedTransaction)
  dirty_mempool : Bool
deriving DecidableEq, Repr

/-- blockchain.rs: Blockchain::new — genesis only, tip at genesis, state
from the ICO, empty orphanage and mempool, clean flag. -/
def Blockchain.new (C : Crypto) : Blockchain :=
  let genesis_hash := C.hashBlock Block.genesis
  { hash_to_block := [(genesis_hash, (Block.genesis, 0, State.ico C))]
    tip := genesis_hash
    orphanage := []
    mempool := []
    dirty_mempool := false }

/-- blockchain.rs: Blockchain::tip_data (the Rust `.expect` panics when the
tip is missing; that case is `none` here and is unreachable under the
invariant proved below). -/
def Blockchain.tip_data (bc : Blockchain) : Option (Block × Nat × State) :=
  lookupA bc.hash_to_block bc.tip

/-- blockchain.rs: Blockchain::prune_invalid_transactions — retain the
mempool entries whose raw transaction is valid against the tip's state and
clear the dirty flag.  (On a missing tip the Rust code panics; modelled as a
no-op, unreachable under the invariant.) -/
def Blockchain.prune_invalid_transactions (bc : Blockchain) : Blockchain :=
  match bc.tip_data with
  | none => bc
  | some (_, _, latest_state) =>
      { bc with
        mempool := bc.mempool.filter
          (fun p => latest_state.check_transaction_validity p.2.raw_transaction)
        dirty_mempool := false }

/-- blockchain.rs: Blockchain::get_transaction — mempool lookup only. -/
def Blockchain.get_transaction (bc : Blockchain) (hash : H256) : Option SignedTransaction :=
  lookupA bc.mempool hash

/-- blockchain.rs: Blockchain::insert_transaction_with_validation — reject a
hash already in the mempool, then an inauthentic signature, then a raw
transaction invalid against the tip state; otherwise insert and return true. -/
def Blockchain.insert_transaction_with_validation (C : Crypto) (bc : Blockchain)
    (transaction : SignedTransaction) : Blockchain × Bool :=
  let hash := C.hashTx transaction
  if (bc.get_transaction hash).isSome then (bc, false)
  else if ¬ transaction.verify_signature C then (bc, false)
  else
    match bc.tip_data with
    | none => (bc, false)
    | some (_, _, state) =>
        if state.check_transaction_validity transaction.raw_transaction then
          ({ bc with mempool := insertA bc.mempool hash transaction }, true)
        else (bc, false)

/-!
blockchain.rs: Blockchain::insert_block_with_validation is recursive: after
inserting a block it removes that hash's orphans and re-inserts each of them
in arrival order, and each recursive activation ends with a conditional
mempool prune.  We embed it as a small-step interpreter over an explicit
task stack that simulates the Rust call stack exactly:
- a `blk B` task is one activation of the function body up to (and
  excluding) its trailing `if dirty { prune }`;
- when an activation accepts its block, the tasks for its promoted orphans
  followed by a `prune` task (the activation's trailing conditional prune)
  are pushed in front of the remaining tasks;
- every other outcome (already present / orphaned / PoW-rejected /
  state-rejected) is an early `return` and contributes nothing further.
The interpreter `goStep` runs structurally through tasks until an acceptance
(tasks can only grow there) and `go` bounds the number of acceptances by a
fuel shown sufficient below (`psi` strictly decreases at each acceptance, so
`totalOrphans + 2` acceptances can never be reached; `go_fuel_irrelevant`
below makes the fuel's irrelevance precise).
-/

/-- One frame of the simulated recursion of insert_block_with_validation. -/
inductive GTask : Type where
  | blk : Block → GTask
  | prune : GTask
deriving DecidableEq, Repr

/-- Total number of blocks buffered in the orphanage. -/
def totalOrphans (orph : List (H256 × List Block)) : Nat :=
  (orph.map (fun p => p.2.length)).sum

/-- Number of pending block tasks. -/
def countBlk : List GTask → Nat
  | [] => 0
  | GTask.blk _ :: rest => countBlk rest + 1
  | GTask.prune :: rest => countBlk rest

/-- Termination measure: buffered orphans plus pending block insertions. -/
def psi (bc : Blockchain) (tasks : List GTask) : Nat :=
  totalOrphans bc.orphanage + countBlk tasks

/-- The state changes of the acceptance path of one activation, after the
three validations have passed: drain the block's transactions from the
mempool, store the block with height parent+1 and its new state, move the
tip (marking the mempool dirty) when the new height is the strict tallest,
and pull the block's waiting orphans out of the orphanage.  Returns the new
engine state and the promoted orphans in arrival order. -/
def commitBlock (C : Crypto) (bc : Blockchain) (block : Block)
    (parent_height : Nat) (new_state : State) : Blockchain × List Block :=
  let hash := C.hashBlock block
  let mempool1 := block.content.transactions.foldl
    (fun m t => eraseA m (C.hashTx t)) bc.mempool
  let block_height := parent_height + 1
  let blocks1 := insertA bc.hash_to_block hash (block, block_height, new_state)
  let bc1 := { bc with hash_to_block := blocks1, mempool := mempool1 }
  let bc2 :=
    match lookupA blocks1 bc.tip with
    | some (_, current_tallest_height, _) =>
        if current_tallest_height < block_height then
          { bc1 with tip := hash, dirty_mempool := true }
        else bc1
    | none => bc1
  let children := (lookupA bc2.orphanage hash).getD []
  ({ bc2 with orphanage := eraseA bc2.orphanage hash }, children)

/-- Outcome of one activation of insert_block_with_validation, before its
orphan-promotion recursion: an early return with the engine untouched, an
early return after buffering the block in the orphanage, or an acceptance. -/
inductive StepOut : Type where
  | reject : StepOut
  | orphaned : Blockchain → StepOut
  | accepted : Blockchain → List Block → StepOut

/-- blockchain.rs line 132: append the block to its (unknown) parent's
orphan list, creating the entry if needed. -/
def Blockchain.orphanAdd (bc : Blockchain) (block : Block) : Blockchain :=
  let entry := ((lookupA bc.orphanage block.header.parent).getD []) ++ [block]
  { bc with orphanage := insertA bc.orphanage block.header.parent entry }

/-- The validation part of one activation of insert_block_with_validation
(blockchain.rs lines 65-116 and 130-133): duplicate check, parent lookup
(buffering orphans), proof-of-work check against the parent's difficulty,
transaction-sequence check against the parent's state, then `commitBlock`. -/
def tryInsertBlock (C : Crypto) (bc : Blockchain) (block : Block) : StepOut :=
  let hash := C.hashBlock block
  if (lookupA bc.hash_to_block hash).isSome then StepOut.reject
  else
    match lookupA bc.hash_to_block block.header.parent with
    | none => StepOut.orphaned (bc.orphanAdd block)
    | some (parent_block, parent_height, parent_state) =>
        if parent_block.header.difficulty < hash then StepOut.reject
        else
          match parent_state.update_with_transactions
              (block.content.transactions.map (fun signed => signed.raw_transaction)) with
          | none => StepOut.reject
          | some new_state =>
              let committed := commitBlock C bc block parent_height new_state
              StepOut.accepted committed.1 committed.2

/-- The body of one activation of insert_block_with_validation, applied to
the task at the head of the stack; `Sum.inr` signals an accepted block
(whose promoted orphans and trailing prune have been pushed). -/
def goStep (C : Crypto) : Blockchain → List GTask → List H256 →
    (Blockchain × List H256) ⊕ (Blockchain × List GTask × List H256)
  | bc, [], acc => Sum.inl (bc, acc)
  | bc, GTask.prune :: rest, acc =>
      goStep C (if bc.dirty_mempool then bc.prune_invalid_transactions else bc) rest acc
  | bc, GTask.blk block :: rest, acc =>
      match tryInsertBlock C bc block with
      | StepOut.reject => goStep C bc rest acc
      | StepOut.orphaned bc1 => goStep C bc1 rest acc
      | StepOut.accepted bc3 children =>
          Sum.inr (bc3, children.map GTask.blk ++ GTask.prune :: rest,
            acc ++ [C.hashBlock block])

/-- Run activations until the task stack is exhausted; the fuel bounds the
number of accepted blocks. -/
def go (C : Crypto) : Nat → Blockchain → List GTask → List H256 → Blockchain × List H256
  | 0, bc, _, acc => (bc, acc)
  | fuel + 1, bc, tasks, acc =>
      match goStep C bc tasks acc with
      | Sum.inl r => r
      | Sum.inr (bc2, tasks2, acc2) => go C fuel bc2 tasks2 acc2

/-- blockchain.rs: Blockchain::insert_block_with_validation.  Returns the
updated engine and the list of all newly added block hashes (the block
itself, then recursively promoted orphans, in order). -/
def Blockchain.insert_block_with_validation (C : Crypto) (bc : Blockchain) (block : Block) :
    Blockchain × List H256 :=
  go C (totalOrphans bc.orphanage + 2) bc [GTask.blk block] []

/-- A public mutating engine call (the two validated-insert entry points). -/
inductive EngineCall : Type where
  | insertBlock : Block → EngineCall
  | insertTx : SignedTransaction → EngineCall

/-- Apply one engine call, keeping the resulting engine state. -/
def applyCall (C : Crypto) (bc : Blockchain) : EngineCall → Blockchain
  | EngineCall.insertBlock b => (Blockchain.insert_block_with_validation C bc b).1
  | EngineCall.insertTx tx => (Blockchain.insert_transaction_with_validation C bc tx).1

/-- The engine state after a sequence of calls starting from Blockchain::new. -/
def runCalls (C : Crypto) (calls : List EngineCall) : Blockchain :=
  calls.foldl (applyCall C) (Blockchain.new C)

/-- network/message.rs: the peer message type exactly as declared there. -/
inductive Message : Type where
  | Ping : String → Message
  | Pong : String → Message
  | NewBlockHashes : List H256 → Message
  | GetBlocks : List H256 → Message
  | Blocks : List Block → Message
deriving DecidableEq

/-- The constructor tags of `Message`. -/
inductive MessageTag : Type where
  | ping | pong | newBlockHashes | getBlocks | blocks
deriving DecidableEq, Fintype

/-- Tag of a message. -/
def Message.tag : Message → MessageTag
  | Message.Ping _ => MessageTag.ping
  | Message.Pong _ => MessageTag.pong
  | Message.NewBlockHashes _ => MessageTag.newBlockHashes
  | Message.GetBlocks _ => MessageTag.getBlocks
  | Message.Blocks _ => MessageTag.blocks

/-- Modelled from the spec: the peer message union of §4.3, with the three
transaction-gossip variants that network/worker.rs (its match arms) and
transaction_generator.rs construct and dispatch on, but which the Message
declaration in network/message.rs lacks. -/
inductive MessageSpec : Type where
  | Ping : String → MessageSpec
  | Pong : String → MessageSpec
  | NewBlockHashes : List H256 → MessageSpec
  | NewTransactionHashes : List H256 → MessageSpec
  | GetBlocks : List H256 → MessageSpec
  | GetTransactions : List H256 → MessageSpec
  | Blocks : List Block → MessageSpec
  | Transactions : List SignedTransaction → MessageSpec

/-- The constructor tags of `MessageSpec`. -/
inductive MessageSpecTag : Type where
  | ping | pong | newBlockHashes | newTransactionHashes
  | getBlocks | getTransactions | blocks | transactions
deriving DecidableEq, Fintype

/-- miner.rs, miner_loop lines 133-151: one commit attempt on a candidate
block whose timestamp has just been refreshed.  When the hash meets the
block's difficulty the block is inserted through the validated path and
NewBlockHashes([hash]) is broadcast unconditionally — the novelty list
returned by the insert is discarded.  Otherwise the nonce is bumped and no
broadcast happens.  Returns the engine, the kept candidate, and the
broadcasts. -/
def minerCommit (C : Crypto) (bc : Blockchain) (block : Block) :
    Blockchain × Option Block × List Message :=
  let hash := C.hashBlock block
  if hash ≤ block.header.difficulty then
    let (bc1, _added_blocks) := Blockchain.insert_block_with_validation C bc block
    (bc1, none, [Message.NewBlockHashes [hash]])
  else
    (bc, some { block with header := { block.header with nonce := block.header.nonce + 1 } }, [])

/-!
crypto/merkle.rs.  `hash_children` is SHA-256 of the two hashes'
concatenation; the hash itself is external, so the whole construction is
parameterized by a combining function `hc`.  The `Hashable` items are
represented by their hashes (the Rust code immediately maps each item to
`item.hash()` and never uses it again).
-/

/-- crypto/merkle.rs: MerkleTreeNode (hash with optional children; a leaf
has none, every aggregated node built below has both). -/
inductive MNode : Type where
  | leaf : H256 → MNode
  | node : H256 → MNode → MNode → MNode
deriving DecidableEq, Repr

/-- The hash stored at a node. -/
def MNode.hash : MNode → H256
  | MNode.leaf h => h
  | MNode.node h _ _ => h

/-- crypto/merkle.rs: the local get_node helper — take the node at an index
that may be out of bounds, leaving `None` behind. -/
def getNode (nodes : List (Option MNode)) (index : Nat) :
    List (Option MNode) × Option MNode :=
  match nodes.get? index with
  | some (some n) => (nodes.set index none, some n)
  | _ => (nodes, none)

/-- crypto/merkle.rs: one aggregation pass (the labelled 'single_pass loop),
pairing slots 2i and 2i+1 into slot i, duplicating a lone left node, and
breaking when slot 2i yields nothing.  The fuel counts the loop iterations
`i = 0 ..= len/2` and is supplied as `len/2 + 1`. -/
def passLoop (hc : H256 → H256 → H256) : Nat → Nat → List (Option MNode) → List (Option MNode)
  | 0, _, nodes => nodes
  | fuel + 1, i, nodes =>
      let taken := getNode nodes (2 * i)
      match taken.2 with
      | none => taken.1
      | some lhs =>
          let taken2 := getNode taken.1 (2 * i + 1)
          let rhs := taken2.2.getD lhs
          let parent := MNode.node (hc lhs.hash rhs.hash) lhs rhs
          passLoop hc fuel (i + 1) (taken2.1.set i (some parent))

/-- crypto/merkle.rs: the outer `while num_remaining_nodes > 1` loop of
MerkleTree::new; each round runs one pass and halves the remaining count
(rounding up), counting aggregations.  The fuel bounds the rounds; the
count halves each round, so `n` rounds always suffice for `n` leaves. -/
def buildLoop (hc : H256 → H256 → H256) :
    Nat → List (Option MNode) → Nat → Nat → List (Option MNode) × Nat
  | 0, nodes, _, aggs => (nodes, aggs)
  | fuel + 1, nodes, remaining, aggs =>
      if remaining ≤ 1 then (nodes, aggs)
      else
        buildLoop hc fuel (passLoop hc (nodes.length / 2 + 1) 0 nodes)
          ((remaining + 1) / 2) (aggs + 1)

/-- crypto/merkle.rs: MerkleTree (root node and number of levels minus one). -/
structure MerkleTree where
  root : MNode
  num_aggregations : Nat
deriving DecidableEq, Repr

/-- crypto/merkle.rs: MerkleTree::new over the item hashes.  (The Rust code
asserts the input is non-empty and panics otherwise; on an empty input this
model returns a dummy leaf.) -/
def MerkleTree.new (hc : H256 → H256 → H256) (leaf_hashes : List H256) : MerkleTree :=
  let nodes := leaf_hashes.map (fun h => some (MNode.leaf h))
  let built := buildLoop hc leaf_hashes.length nodes leaf_hashes.length 0
  { root := ((built.1.get? 0).getD none).getD (MNode.leaf 0)
    num_aggregations := built.2 }

/-- crypto/merkle.rs: MerkleTree::root — the root hash. -/
def MerkleTree.rootHash (t : MerkleTree) : H256 := t.root.hash

/-- The traversal of MerkleTree::proof: follow the direction list from the
root, pushing the hash of the sibling not taken at each step.  (The Rust
`.expect` on a missing child panics; unreachable on the full trees built by
MerkleTree::new, modelled by stopping.) -/
def proofWalk : MNode → List Bool → List H256
  | _, [] => []
  | MNode.leaf _, _ :: _ => []
  | MNode.node _ l r, dir :: rest =>
      if dir then l.hash :: proofWalk r rest else r.hash :: proofWalk l rest

/-- crypto/merkle.rs: MerkleTree::proof — the direction list is built by
repeatedly taking the least significant bit of the index (`bit_path & 1`,
then `bit_path >>= 1`), and the traversal consumes it in that order,
starting at the root. -/
def MerkleTree.proof (t : MerkleTree) (index : Nat) : List H256 :=
  let directions :=
    (List.range t.num_aggregations).map (fun k => decide ((index >>> k) % 2 = 1))
  proofWalk t.root directions

/-- crypto/merkle.rs: the loop of verify — walk the proof from its last
element (the closest sibling), combining towards the root, taking the least
significant bit of the index at each level. -/
def verifyLoop (hc : H256 → H256 → H256) : List H256 → Nat → H256 → H256
  | [], _, current => current
  | sibling :: rest, bit_path, current =>
      let current1 := if bit_path % 2 = 1 then hc sibling current else hc current sibling
      verifyLoop hc rest (bit_path / 2) current1

/-- crypto/merkle.rs: verify (free function). -/
def verify (hc : H256 → H256 → H256) (root_hash : H256) (datum_hash : H256)
    (proof : List H256) (index : Nat) (_num_leaves : Nat) : Bool :=
  decide (root_hash = verifyLoop hc proof.reverse index datum_hash)

/-- During the simulated recursion the mempool may be stale (dirty), but
only while a pending prune task remains on the stack. -/
def DirtyOK (bc : Blockchain) (tasks : List GTask) : Prop :=
  bc.dirty_mempool = true → GTask.prune ∈ tasks

/-- The structural part of the engine invariant: tip present and maximal,
genesis stored at height 0 with the ICO state, every other stored block
linked to its stored parent with height parent+1 and the recorded state
being the successful application of its transactions, and every mempool
entry signature-authentic and (when the mempool is clean) valid against the
tip state. -/
structure InvCore (C : Crypto) (bc : Blockchain) : Prop where
  tip_mem : (lookupA bc.hash_to_block bc.tip).isSome
  genesis_mem : lookupA bc.hash_to_block (C.hashBlock Block.genesis) =
    some (Block.genesis, 0, State.ico C)
  parent_link : ∀ h B ht st, lookupA bc.hash_to_block h = some (B, ht, st) →
    ¬ h = C.hashBlock Block.genesis →
    ∃ pB pht pst, lookupA bc.hash_to_block B.header.parent = some (pB, pht, pst) ∧
      ht = pht + 1 ∧
      pst.update_with_transactions
        (B.content.transactions.map (fun s => s.raw_transaction)) = some st
  tip_max : ∀ h B ht st, lookupA bc.hash_to_block h = some (B, ht, st) →
    ∀ tB tht tst, lookupA bc.hash_to_block bc.tip = some (tB, tht, tst) → ht ≤ tht
  mempool_sig : ∀ p ∈ bc.mempool, SignedTransaction.verify_signature C p.2 = true
  mempool_valid : bc.dirty_mempool = false → ∀ p ∈ bc.mempool,
    ∀ tB tht tst, lookupA bc.hash_to_block bc.tip = some (tB, tht, tst) →
      tst.check_transaction_validity p.2.raw_transaction = true

/-- The invariant that holds between any two public engine calls. -/
def EngineInv (C : Crypto) (bc : Blockchain) : Prop :=
  InvCore C bc ∧ bc.dirty_mempool = false

/-!
Concrete fixtures for the counterexamples and witnesses.  `testCrypto`
instantiates the external primitives: a block's hash is its header nonce,
an address is the pubkey's own code, and a signature verifies exactly when
the pubkey names the sender.
-/

/-- A concrete instantiation of the external cryptographic primitives. -/
def testCrypto : Crypto where
  hashBlock := fun b => b.header.nonce
  hashTx := fun tx => tx.raw_transaction.nonce + 100 * tx.raw_transaction.from_addr + 7
  ed25519Verify := fun pk raw _sig => decide (pk = raw.from_addr)
  h160FromPubkey := fun pk => pk
  deterministicPubkey := fun i => i

/-- A one-account ledger used by the concrete base chain. -/
def fixState : State := State.mk [(0, AccountInfo.mk 0 50)]

/-- The concrete base chain's only block: difficulty 9. -/
def fixParent : Block := Block.mk (Header.mk 77 100 9 0 0) (Content.mk [])

/-- A handcrafted engine state whose single block (hash 100) is the tip. -/
def fixBase : Blockchain := Blockchain.mk [(100, (fixParent, 0, fixState))] 100 [] [] false

/-- A block extending fixParent (hash 7, difficulty 30). -/
def fixB1 : Block := Block.mk (Header.mk 100 7 30 0 0) (Content.mk [])

/-- A block extending fixB1 (hash 3). -/
def fixB2 : Block := Block.mk (Header.mk 7 3 2 0 0) (Content.mk [])

/-- Another block extending fixParent (hash 5), used as the mined block. -/
def fixX : Block := Block.mk (Header.mk 100 5 9 0 0) (Content.mk [])

/-- A block whose parent (hash 55) is unknown to a fresh chain. -/
def fixOrphan : Block := Block.mk (Header.mk 55 4 0 0 0) (Content.mk [])

/-- A signed transaction from ICO account 0 under testCrypto. -/
def fixTx : SignedTransaction := SignedTransaction.mk (RawTransaction.mk 0 1 5 0) 0 0

/-- A block whose parent is genesis (hash 0 under testCrypto) and whose own
hash (5) is nonzero. -/
def fixC6B : Block := Block.mk (Header.mk 0 5 0 0 0) (Content.mk [])

/-- A raw transaction whose value exceeds the fixState sender's balance. -/
def fixTxBig : RawTransaction := RawTransaction.mk 0 9 100 0

/-- The Merkle tree over three leaf hashes 0, 1, 2 with an injective
pairing function standing in for SHA-256 of the concatenation. -/
def merkleTree3 : MerkleTree := MerkleTree.new Nat.pair [0, 1, 2]

/-! Association-list map lemmas. -/

theorem lookupA_eraseA_ne {α β : Type} [DecidableEq α] (m : List (α × β)) (k key : α)
    (h : ¬ key = k) : lookupA (eraseA m k) key = lookupA m key := by
  induction m with
  | nil => rfl
  | cons p rest ih =>
      rcases p with ⟨a, b⟩
      by_cases ha : a = k
      · have hka : ¬ key = a := fun hk => h (hk.trans ha)
        simp only [eraseA, if_pos ha, lookupA, if_neg hka]
        exact ih
      · simp only [eraseA, if_neg ha, lookupA]
        by_cases hk : key = a
        · simp [hk]
        · simp only [if_neg hk]
          exact ih

theorem lookupA_eraseA_self {α β : Type} [DecidableEq α] (m : List (α × β)) (k : α) :
    lookupA (eraseA m k) k = none := by
  induction m with
  | nil => rfl
  | cons p rest ih =>
      rcases p with ⟨a, b⟩
      by_cases ha : a = k
      · simp only [eraseA, if_pos ha]
        exact ih
      · have hka : ¬ k = a := fun hk => ha hk.symm
        simp only [eraseA, if_neg ha, lookupA, if_neg hka]
        exact ih

theorem lookupA_insertA_self {α β : Type} [DecidableEq α] (m : List (α × β)) (k : α) (v : β) :
    lookupA (insertA m k v) k = some v := by
  simp [insertA, lookupA]

theorem lookupA_insertA_ne {α β : Type} [DecidableEq α] (m : List (α × β)) (k key : α) (v : β)
    (h : ¬ key = k) : lookupA (insertA m k v) key = lookupA m key := by
  simp only [insertA, lookupA, if_neg h]
  exact lookupA_eraseA_ne m k key h

theorem lookupA_mem {α β : Type} [DecidableEq α] {m : List (α × β)} {key : α} {v : β}
    (h : lookupA m key = some v) : (key, v) ∈ m := by
  induction m with
  | nil => cases h
  | cons p rest ih =>
      rcases p with ⟨a, b⟩
      by_cases hk : key = a
      · subst hk
        simp only [lookupA, if_pos rfl] at h
        cases h
        exact List.mem_cons_self _ _
      · simp only [lookupA, if_neg hk] at h
        exact List.mem_cons_of_mem _ (ih h)

theorem mem_eraseA {α β : Type} [DecidableEq α] {m : List (α × β)} {k : α} {p : α × β}
    (h : p ∈ eraseA m k) : p ∈ m := by
  induction m with
  | nil => cases h
  | cons q rest ih =>
      by_cases hq : q.1 = k
      · simp only [eraseA, if_pos hq] at h
        exact List.mem_cons_of_mem _ (ih h)
      · simp only [eraseA, if_neg hq] at h
        rcases List.mem_cons.mp h with h1 | h1
        · exact h1 ▸ List.mem_cons_self _ _
        · exact List.mem_cons_of_mem _ (ih h1)

theorem mem_insertA {α β : Type} [DecidableEq α] {m : List (α × β)} {k : α} {v : β} {p : α × β}
    (h : p ∈ insertA m k v) : p = (k, v) ∨ p ∈ m := by
  rcases List.mem_cons.mp h with h1 | h1
  · exact Or.inl h1
  · exact Or.inr (mem_eraseA h1)

theorem mem_foldl_eraseA {α β γ : Type} [DecidableEq α] (f : γ → α) :
    ∀ (l : List γ) (m : List (α × β)) (p : α × β),
      p ∈ l.foldl (fun m t => eraseA m (f t)) m → p ∈ m := by
  intro l
  induction l with
  | nil => intro m p h; exact h
  | cons t rest ih =>
      intro m p h
      exact mem_eraseA (ih (eraseA m (f t)) p h)

theorem lookupA_foldl_eraseA {α β γ : Type} [DecidableEq α] (f : γ → α) :
    ∀ (l : List γ) (m : List (α × β)) (key : α) (v : β),
      lookupA (l.foldl (fun m t => eraseA m (f t)) m) key = some v → (key, v) ∈ m := by
  intro l m key v h
  exact mem_foldl_eraseA f l m (key, v) (lookupA_mem h)

theorem mem_filter_pred {α : Type} {l : List α} {g : α → Bool} {p : α}
    (h : p ∈ l.filter g) : p ∈ l ∧ g p = true :=
  ⟨List.mem_of_mem_filter h, List.of_mem_filter h⟩

/-! Orphanage-size lemmas used for termination of the insert interpreter. -/

theorem totalOrphans_eraseA_le (m : List (H256 × List Block)) (k : H256) :
    totalOrphans (eraseA m k) ≤ totalOrphans m := by
  induction m with
  | nil => exact Nat.le_refl _
  | cons p rest ih =>
      rcases p with ⟨a, b⟩
      by_cases ha : a = k
      · simp only [eraseA, if_pos ha, totalOrphans, List.map_cons, List.sum_cons] at *
        omega
      · simp only [eraseA, if_neg ha, totalOrphans, List.map_cons, List.sum_cons] at *
        omega

theorem totalOrphans_lookup_eraseA {m : List (H256 × List Block)} {k : H256} {l : List Block}
    (h : lookupA m k = some l) :
    totalOrphans (eraseA m k) + l.length ≤ totalOrphans m := by
  induction m with
  | nil => cases h
  | cons p rest ih =>
      rcases p with ⟨a, b⟩
      by_cases ha : k = a
      · subst ha
        simp only [lookupA, if_pos rfl] at h
        cases h
        have h2 := totalOrphans_eraseA_le rest k
        simp [eraseA, totalOrphans] at *
        omega
      · simp only [lookupA, if_neg ha] at h
        have h2 := ih h
        have hb : ¬ a = k := fun hk => ha hk.symm
        simp only [eraseA, if_neg hb, totalOrphans, List.map_cons, List.sum_cons] at *
        omega

theorem totalOrphans_insertA (m : List (H256 × List Block)) (k : H256) (l : List Block) :
    totalOrphans (insertA m k l) = l.length + totalOrphans (eraseA m k) := by
  simp [totalOrphans, insertA]

theorem totalOrphans_insertA_le {m : List (H256 × List Block)} {k : H256} {b : Block} :
    totalOrphans (insertA m k (((lookupA m k).getD []) ++ [b])) ≤ totalOrphans m + 1 := by
  rw [totalOrphans_insertA]
  cases h : lookupA m k with
  | none =>
      have := totalOrphans_eraseA_le m k
      simp only [h, Option.getD_none, List.nil_append, List.length_cons, List.length_nil]
      omega
  | some l =>
      have := totalOrphans_lookup_eraseA h
      simp only [h, Option.getD_some, List.length_append, List.length_cons, List.length_nil]
      omega

theorem countBlk_append (a b : List GTask) : countBlk (a ++ b) = countBlk a + countBlk b := by
  induction a with
  | nil => simp [countBlk]
  | cons t rest ih =>
      cases t with
      | blk _ => simp [countBlk, ih]; omega
      | prune => simp [countBlk, ih]

theorem countBlk_map_blk (l : List Block) : countBlk (l.map GTask.blk) = l.length := by
  induction l with
  | nil => rfl
  | cons b rest ih => simp [countBlk, ih]

/-! Characterizations of the pieces of the insert interpreter. -/

theorem prune_fields (bc : Blockchain) :
    bc.prune_invalid_transactions.hash_to_block = bc.hash_to_block ∧
    bc.prune_invalid_transactions.tip = bc.tip ∧
    bc.prune_invalid_transactions.orphanage = bc.orphanage := by
  unfold Blockchain.prune_invalid_transactions
  cases h : bc.tip_data with
  | none => exact ⟨rfl, rfl, rfl⟩
  | some e => rcases e with ⟨a, b, c⟩; exact ⟨rfl, rfl, rfl⟩

theorem commitBlock_proj (C : Crypto) (bc : Blockchain) (block : Block) (ph : Nat) (ns : State) :
    (commitBlock C bc block ph ns).1.orphanage = eraseA bc.orphanage (C.hashBlock block) ∧
    (commitBlock C bc block ph ns).2 = (lookupA bc.orphanage (C.hashBlock block)).getD [] ∧
    (commitBlock C bc block ph ns).1.hash_to_block =
      insertA bc.hash_to_block (C.hashBlock block) (block, ph + 1, ns) ∧
    (commitBlock C bc block ph ns).1.mempool =
      block.content.transactions.foldl (fun m t => eraseA m (C.hashTx t)) bc.mempool := by
  simp only [commitBlock]
  cases hl : lookupA (insertA bc.hash_to_block (C.hashBlock block) (block, ph + 1, ns)) bc.tip with
  | none => simp
  | some e =>
      rcases e with ⟨eB, eH, eS⟩
      by_cases hlt : eH < ph + 1 <;> simp [hlt]

theorem commitBlock_tip (C : Crypto) (bc : Blockchain) (block : Block) (ph : Nat) (ns : State) :
    ((commitBlock C bc block ph ns).1.tip = C.hashBlock block ∧
      (commitBlock C bc block ph ns).1.dirty_mempool = true ∧
      (∀ eB eH eS,
        lookupA (insertA bc.hash_to_block (C.hashBlock block) (block, ph + 1, ns)) bc.tip =
          some (eB, eH, eS) → eH < ph + 1)) ∨
    ((commitBlock C bc block ph ns).1.tip = bc.tip ∧
      (commitBlock C bc block ph ns).1.dirty_mempool = bc.dirty_mempool ∧
      (∀ eB eH eS,
        lookupA (insertA bc.hash_to_block (C.hashBlock block) (block, ph + 1, ns)) bc.tip =
          some (eB, eH, eS) → ¬ eH < ph + 1)) := by
  simp only [commitBlock]
  cases hl : lookupA (insertA bc.hash_to_block (C.hashBlock block) (block, ph + 1, ns)) bc.tip with
  | none => simp
  | some e =>
      rcases e with ⟨eB, eH, eS⟩
      by_cases hlt : eH < ph + 1
      · refine Or.inl ?_
        simp only [hl, if_pos hlt]
        refine ⟨trivial, trivial, ?_⟩
        intro fB fH fS hf
        cases hf
        exact hlt
      · refine Or.inr ?_
        simp only [hl, if_neg hlt]
        refine ⟨trivial, trivial, ?_⟩
        intro fB fH fS hf
        cases hf
        exact hlt

theorem tryInsertBlock_dup {C : Crypto} {bc : Blockchain} {block : Block}
    (h : (lookupA bc.hash_to_block (C.hashBlock block)).isSome) :
    tryInsertBlock C bc block = StepOut.reject := by
  simp [tryInsertBlock, h]

theorem orphanAdd_fields (bc : Blockchain) (block : Block) :
    (bc.orphanAdd block).orphanage = insertA bc.orphanage block.header.parent
      (((lookupA bc.orphanage block.header.parent).getD []) ++ [block]) ∧
    (bc.orphanAdd block).hash_to_block = bc.hash_to_block ∧
    (bc.orphanAdd block).tip = bc.tip ∧
    (bc.orphanAdd block).mempool = bc.mempool ∧
    (bc.orphanAdd block).dirty_mempool = bc.dirty_mempool := by
  simp [Blockchain.orphanAdd]

theorem tryInsertBlock_orphan {C : Crypto} {bc : Blockchain} {block : Block}
    (h1 : lookupA bc.hash_to_block (C.hashBlock block) = none)
    (h2 : lookupA bc.hash_to_block block.header.parent = none) :
    tryInsertBlock C bc block = StepOut.orphaned (bc.orphanAdd block) := by
  simp [tryInsertBlock, h1, h2]

theorem tryInsertBlock_pow {C : Crypto} {bc : Blockchain} {block : Block}
    {pb : Block} {ph : Nat} {pst : State}
    (h1 : lookupA bc.hash_to_block (C.hashBlock block) = none)
    (h2 : lookupA bc.hash_to_block block.header.parent = some (pb, ph, pst))
    (h3 : pb.header.difficulty < C.hashBlock block) :
    tryInsertBlock C bc block = StepOut.reject := by
  simp [tryInsertBlock, h1, h2, h3]

theorem tryInsertBlock_badstate {C : Crypto} {bc : Blockchain} {block : Block}
    {pb : Block} {ph : Nat} {pst : State}
    (h1 : lookupA bc.hash_to_block (C.hashBlock block) = none)
    (h2 : lookupA bc.hash_to_block block.header.parent = some (pb, ph, pst))
    (h3 : ¬ pb.header.difficulty < C.hashBlock block)
    (h4 : pst.update_with_transactions
        (block.content.transactions.map (fun signed => signed.raw_transaction)) = none) :
    tryInsertBlock C bc block = StepOut.reject := by
  simp [tryInsertBlock, h1, h2, h3, h4]

theorem tryInsertBlock_accept {C : Crypto} {bc : Blockchain} {block : Block}
    {pb : Block} {ph : Nat} {pst : State} {ns : State}
    (h1 : lookupA bc.hash_to_block (C.hashBlock block) = none)
    (h2 : lookupA bc.hash_to_block block.header.parent = some (pb, ph, pst))
    (h3 : ¬ pb.header.difficulty < C.hashBlock block)
    (h4 : pst.update_with_transactions
        (block.content.transactions.map (fun signed => signed.raw_transaction)) = some ns) :
    tryInsertBlock C bc block =
      StepOut.accepted (commitBlock C bc block ph ns).1 (commitBlock C bc block ph ns).2 := by
  simp [tryInsertBlock, h1, h2, h3, h4]

theorem tryInsertBlock_orphaned_inv {C : Crypto} {bc : Blockchain} {block : Block}
    {bc1 : Blockchain} (h : tryInsertBlock C bc block = StepOut.orphaned bc1) :
    lookupA bc.hash_to_block (C.hashBlock block) = none ∧
    lookupA bc.hash_to_block block.header.parent = none ∧
    bc1 = bc.orphanAdd block := by
  by_cases h1 : (lookupA bc.hash_to_block (C.hashBlock block)).isSome
  · rw [tryInsertBlock_dup h1] at h
    cases h
  · have h1n : lookupA bc.hash_to_block (C.hashBlock block) = none :=
      Option.not_isSome_iff_eq_none.mp h1
    cases h2 : lookupA bc.hash_to_block block.header.parent with
    | none =>
        rw [tryInsertBlock_orphan h1n h2] at h
        cases h
        exact ⟨h1n, rfl, rfl⟩
    | some e =>
        rcases e with ⟨pb, ph, pst⟩
        by_cases h3 : pb.header.difficulty < C.hashBlock block
        · rw [tryInsertBlock_pow h1n h2 h3] at h
          cases h
        · cases h4 : pst.update_with_transactions
              (block.content.transactions.map (fun signed => signed.raw_transaction)) with
          | none =>
              rw [tryInsertBlock_badstate h1n h2 h3 h4] at h
              cases h
          | some ns =>
              rw [tryInsertBlock_accept h1n h2 h3 h4] at h
              cases h

theorem tryInsertBlock_accepted_inv {C : Crypto} {bc : Blockchain} {block : Block}
    {bc3 : Blockchain} {children : List Block}
    (h : tryInsertBlock C bc block = StepOut.accepted bc3 children) :
    ∃ pb ph pst ns,
      lookupA bc.hash_to_block (C.hashBlock block) = none ∧
      lookupA bc.hash_to_block block.header.parent = some (pb, ph, pst) ∧
      ¬ pb.header.difficulty < C.hashBlock block ∧
      pst.update_with_transactions
        (block.content.transactions.map (fun signed => signed.raw_transaction)) = some ns ∧
      bc3 = (commitBlock C bc block ph ns).1 ∧
      children = (commitBlock C bc block ph ns).2 := by
  by_cases h1 : (lookupA bc.hash_to_block (C.hashBlock block)).isSome
  · rw [tryInsertBlock_dup h1] at h
    cases h
  · have h1n : lookupA bc.hash_to_block (C.hashBlock block) = none :=
      Option.not_isSome_iff_eq_none.mp h1
    cases h2 : lookupA bc.hash_to_block block.header.parent with
    | none =>
        rw [tryInsertBlock_orphan h1n h2] at h
        cases h
    | some e =>
        rcases e with ⟨pb, ph, pst⟩
        by_cases h3 : pb.header.difficulty < C.hashBlock block
        · rw [tryInsertBlock_pow h1n h2 h3] at h
          cases h
        · cases h4 : pst.update_with_transactions
              (block.content.transactions.map (fun signed => signed.raw_transaction)) with
          | none =>
              rw [tryInsertBlock_badstate h1n h2 h3 h4] at h
              cases h
          | some ns =>
              rw [tryInsertBlock_accept h1n h2 h3 h4] at h
              cases h
              exact ⟨pb, ph, pst, ns, h1n, rfl, h3, h4, rfl, rfl⟩

theorem tryInsertBlock_reject_inv {C : Crypto} {bc : Blockchain} {block : Block}
    (h : tryInsertBlock C bc block = StepOut.reject) :
    (lookupA bc.hash_to_block (C.hashBlock block)).isSome ∨
    (lookupA bc.hash_to_block (C.hashBlock block) = none ∧
      ∃ pb ph pst, lookupA bc.hash_to_block block.header.parent = some (pb, ph, pst) ∧
        (pb.header.difficulty < C.hashBlock block ∨
          pst.update_with_transactions
            (block.content.transactions.map (fun signed => signed.raw_transaction)) = none)) := by
  by_cases h1 : (lookupA bc.hash_to_block (C.hashBlock block)).isSome
  · exact Or.inl h1
  · have h1n : lookupA bc.hash_to_block (C.hashBlock block) = none :=
      Option.not_isSome_iff_eq_none.mp h1
    cases h2 : lookupA bc.hash_to_block block.header.parent with
    | none =>
        rw [tryInsertBlock_orphan h1n h2] at h
        cases h
    | some e =>
        rcases e with ⟨pb, ph, pst⟩
        by_cases h3 : pb.header.difficulty < C.hashBlock block
        · exact Or.inr ⟨h1n, pb, ph, pst, rfl, Or.inl h3⟩
        · cases h4 : pst.update_with_transactions
              (block.content.transactions.map (fun signed => signed.raw_transaction)) with
          | none => exact Or.inr ⟨h1n, pb, ph, pst, rfl, Or.inr h4⟩
          | some ns =>
              rw [tryInsertBlock_accept h1n h2 h3 h4] at h
              cases h

/-! Unfolding equations and the termination measure of the interpreter. -/

theorem goStep_nil (C : Crypto) (bc : Blockchain) (acc : List H256) :
    goStep C bc [] acc = Sum.inl (bc, acc) := rfl

theorem goStep_prune (C : Crypto) (bc : Blockchain) (rest : List GTask) (acc : List H256) :
    goStep C bc (GTask.prune :: rest) acc =
      goStep C (if bc.dirty_mempool then bc.prune_invalid_transactions else bc) rest acc := rfl

theorem goStep_blk (C : Crypto) (bc : Blockchain) (block : Block) (rest : List GTask)
    (acc : List H256) :
    goStep C bc (GTask.blk block :: rest) acc =
      match tryInsertBlock C bc block with
      | StepOut.reject => goStep C bc rest acc
      | StepOut.orphaned bc1 => goStep C bc1 rest acc
      | StepOut.accepted bc3 children =>
          Sum.inr (bc3, children.map GTask.blk ++ GTask.prune :: rest,
            acc ++ [C.hashBlock block]) := rfl

theorem dirty_branch_orphanage (bc : Blockchain) :
    (if bc.dirty_mempool then bc.prune_invalid_transactions else bc).orphanage =
      bc.orphanage := by
  by_cases hd : bc.dirty_mempool
  · simp [hd, (prune_fields bc).2.2]
  · simp [hd]

theorem goStep_inr_psi (C : Crypto) :
    ∀ (tasks : List GTask) (bc : Blockchain) (acc : List H256)
      {out : Blockchain × List GTask × List H256},
      goStep C bc tasks acc = Sum.inr out → psi out.1 out.2.1 < psi bc tasks := by
  intro tasks
  induction tasks with
  | nil =>
      intro bc acc out h
      rw [goStep_nil] at h
      exact Sum.noConfusion h
  | cons t rest ih =>
      intro bc acc out h
      cases t with
      | prune =>
          rw [goStep_prune] at h
          have hlt := ih _ _ h
          have hcnt : countBlk (GTask.prune :: rest) = countBlk rest := rfl
          unfold psi at hlt ⊢
          rw [dirty_branch_orphanage bc] at hlt
          rw [hcnt]
          exact hlt
      | blk block =>
          rw [goStep_blk] at h
          have hcnt : countBlk (GTask.blk block :: rest) = countBlk rest + 1 := rfl
          cases htry : tryInsertBlock C bc block with
          | reject =>
              rw [htry] at h
              have hlt := ih _ _ h
              unfold psi at *
              omega
          | orphaned bc1 =>
              rw [htry] at h
              have hlt := ih _ _ h
              obtain ⟨-, -, heq⟩ := tryInsertBlock_orphaned_inv htry
              have h1 := (orphanAdd_fields bc block).1
              have h2 := totalOrphans_insertA_le (m := bc.orphanage)
                (k := block.header.parent) (b := block)
              rw [heq] at hlt
              unfold psi at *
              rw [h1] at hlt
              omega
          | accepted bc3 children =>
              rw [htry] at h
              cases h
              obtain ⟨pb, ph, pst, ns, -, -, -, -, hbc3, hch⟩ := tryInsertBlock_accepted_inv htry
              have hproj := (commitBlock_proj C bc block ph ns).1
              have hch2 := (commitBlock_proj C bc block ph ns).2.1
              have hcnt2 : countBlk (children.map GTask.blk ++ GTask.prune :: rest) =
                  children.length + countBlk rest := by
                rw [countBlk_append, countBlk_map_blk]
                rfl
              have hbound : totalOrphans (eraseA bc.orphanage (C.hashBlock block)) +
                  children.length ≤ totalOrphans bc.orphanage := by
                cases hlk : lookupA bc.orphanage (C.hashBlock block) with
                | none =>
                    have h3 := totalOrphans_eraseA_le bc.orphanage (C.hashBlock block)
                    have : children = [] := by
                      rw [hch, hch2, hlk]
                      rfl
                    simp [this]
                    omega
                | some l =>
                    have h3 := totalOrphans_lookup_eraseA hlk
                    have : children = l := by
                      rw [hch, hch2, hlk]
                      rfl
                    rw [this]
                    omega
              unfold psi
              rw [hbc3, hproj, hcnt2, hcnt]
              omega

/-! The engine invariant and its preservation. -/

theorem prune_invCore {C : Crypto} {bc : Blockchain} (inv : InvCore C bc) :
    InvCore C bc.prune_invalid_transactions ∧
      bc.prune_invalid_transactions.dirty_mempool = false := by
  obtain ⟨e, he⟩ := Option.isSome_iff_exists.mp inv.tip_mem
  rcases e with ⟨tB0, tht0, tst0⟩
  have hpr : bc.prune_invalid_transactions =
      { bc with
        mempool := bc.mempool.filter
          (fun p => tst0.check_transaction_validity p.2.raw_transaction)
        dirty_mempool := false } := by
    unfold Blockchain.prune_invalid_transactions Blockchain.tip_data
    rw [he]
  rw [hpr]
  refine ⟨⟨inv.tip_mem, inv.genesis_mem, inv.parent_link, inv.tip_max, ?_, ?_⟩, rfl⟩
  · intro p hp
    exact inv.mempool_sig p (List.mem_of_mem_filter hp)
  · intro _ p hp tB tht tst hlk
    rw [he] at hlk
    cases hlk
    have hp2 : p ∈ List.filter
        (fun q => tst0.check_transaction_validity q.2.raw_transaction) bc.mempool := hp
    exact (List.mem_filter.mp hp2).2

theorem orphanAdd_invCore {C : Crypto} {bc : Blockchain} {block : Block}
    (inv : InvCore C bc) : InvCore C (bc.orphanAdd block) :=
  ⟨inv.tip_mem, inv.genesis_mem, inv.parent_link, inv.tip_max, inv.mempool_sig,
    inv.mempool_valid⟩

theorem commitBlock_invCore {C : Crypto} {bc : Blockchain} {block : Block}
    {ph : Nat} {ns : State} {pb : Block} {pst : State}
    (inv : InvCore C bc)
    (h1 : lookupA bc.hash_to_block (C.hashBlock block) = none)
    (h2 : lookupA bc.hash_to_block block.header.parent = some (pb, ph, pst))
    (h4 : pst.update_with_transactions
      (block.content.transactions.map (fun s => s.raw_transaction)) = some ns) :
    InvCore C (commitBlock C bc block ph ns).1 := by
  obtain ⟨e0, he0⟩ := Option.isSome_iff_exists.mp inv.tip_mem
  rcases e0 with ⟨tB0, tht0, tst0⟩
  have hne_tip : ¬ bc.tip = C.hashBlock block := by
    intro hEq
    rw [hEq, h1] at he0
    cases he0
  have hne_gen : ¬ C.hashBlock Block.genesis = C.hashBlock block := by
    intro hEq
    have := inv.genesis_mem
    rw [hEq, h1] at this
    cases this
  have hne_par : ¬ block.header.parent = C.hashBlock block := by
    intro hEq
    rw [hEq, h1] at h2
    cases h2
  have hb1 := (commitBlock_proj C bc block ph ns).2.2.1
  have hmp := (commitBlock_proj C bc block ph ns).2.2.2
  have hself : lookupA (insertA bc.hash_to_block (C.hashBlock block) (block, ph + 1, ns))
      (C.hashBlock block) = some (block, ph + 1, ns) :=
    lookupA_insertA_self _ _ _
  have hother : ∀ key, ¬ key = C.hashBlock block →
      lookupA (insertA bc.hash_to_block (C.hashBlock block) (block, ph + 1, ns)) key =
        lookupA bc.hash_to_block key := fun key hk =>
    lookupA_insertA_ne _ _ _ _ hk
  have hparent_link : ∀ h B ht st,
      lookupA (commitBlock C bc block ph ns).1.hash_to_block h = some (B, ht, st) →
      ¬ h = C.hashBlock Block.genesis →
      ∃ pB pht pst2,
        lookupA (commitBlock C bc block ph ns).1.hash_to_block B.header.parent =
          some (pB, pht, pst2) ∧ ht = pht + 1 ∧
        pst2.update_with_transactions
          (B.content.transactions.map (fun s => s.raw_transaction)) = some st := by
    intro h B ht st hlk hng
    rw [hb1] at hlk ⊢
    by_cases hh : h = C.hashBlock block
    · rw [hh, hself] at hlk
      cases hlk
      refine ⟨pb, ph, pst, ?_, rfl, h4⟩
      rw [hother _ hne_par]
      exact h2
    · rw [hother _ hh] at hlk
      obtain ⟨pB, pht, pst2, hp, hht, hup⟩ := inv.parent_link h B ht st hlk hng
      have hpar_ne : ¬ B.header.parent = C.hashBlock block := by
        intro hEq
        rw [hEq, h1] at hp
        cases hp
      refine ⟨pB, pht, pst2, ?_, hht, hup⟩
      rw [hother _ hpar_ne]
      exact hp
  have hgen : lookupA (commitBlock C bc block ph ns).1.hash_to_block
      (C.hashBlock Block.genesis) = some (Block.genesis, 0, State.ico C) := by
    rw [hb1, hother _ hne_gen]
    exact inv.genesis_mem
  have hsig : ∀ p ∈ (commitBlock C bc block ph ns).1.mempool,
      SignedTransaction.verify_signature C p.2 = true := by
    intro p hp
    rw [hmp] at hp
    exact inv.mempool_sig p (mem_foldl_eraseA _ _ _ _ hp)
  rcases commitBlock_tip C bc block ph ns with ⟨htip, hdirty, hcond⟩ | ⟨htip, hdirty, hcond⟩
  · -- tip moved to the new block; mempool marked dirty
    refine ⟨?_, hgen, hparent_link, ?_, hsig, ?_⟩
    · rw [hb1, htip, hself]
      rfl
    · intro h B ht st hlk tB tht tst hlkT
      rw [hb1, htip, hself] at hlkT
      cases hlkT
      rw [hb1] at hlk
      by_cases hh : h = C.hashBlock block
      · rw [hh, hself] at hlk
        cases hlk
        exact Nat.le_refl _
      · rw [hother _ hh] at hlk
        have hOldTip : lookupA (insertA bc.hash_to_block (C.hashBlock block)
            (block, ph + 1, ns)) bc.tip = some (tB0, tht0, tst0) := by
          rw [hother _ hne_tip]
          exact he0
        have hlt := hcond tB0 tht0 tst0 hOldTip
        have hle := inv.tip_max h B ht st hlk tB0 tht0 tst0 he0
        omega
    · intro hd
      rw [hdirty] at hd
      cases hd
  · -- tip unchanged
    refine ⟨?_, hgen, hparent_link, ?_, hsig, ?_⟩
    · rw [hb1, htip, hother _ hne_tip, he0]
      rfl
    · intro h B ht st hlk tB tht tst hlkT
      rw [hb1, htip, hother _ hne_tip, he0] at hlkT
      cases hlkT
      rw [hb1] at hlk
      by_cases hh : h = C.hashBlock block
      · rw [hh, hself] at hlk
        cases hlk
        have hOldTip : lookupA (insertA bc.hash_to_block (C.hashBlock block)
            (block, ph + 1, ns)) bc.tip = some (tB0, tht0, tst0) := by
          rw [hother _ hne_tip]
          exact he0
        have := hcond tB0 tht0 tst0 hOldTip
        omega
      · rw [hother _ hh] at hlk
        exact inv.tip_max h B ht st hlk tB0 tht0 tst0 he0
    · intro hd p hp tB tht tst hlkT
      rw [hdirty] at hd
      rw [hmp] at hp
      rw [hb1, htip, hother _ hne_tip, he0] at hlkT
      cases hlkT
      exact inv.mempool_valid hd p (mem_foldl_eraseA _ _ _ _ hp) tB0 tht0 tst0 he0

theorem goStep_inv (C : Crypto) :
    ∀ (tasks : List GTask) (bc : Blockchain) (acc : List H256),
      InvCore C bc → DirtyOK bc tasks →
      (∀ r, goStep C bc tasks acc = Sum.inl r →
        InvCore C r.1 ∧ r.1.dirty_mempool = false) ∧
      (∀ out, goStep C bc tasks acc = Sum.inr out →
        InvCore C out.1 ∧ DirtyOK out.1 out.2.1) := by
  intro tasks
  induction tasks with
  | nil =>
      intro bc acc hinv hd
      constructor
      · intro r h
        rw [goStep_nil] at h
        cases h
        refine ⟨hinv, ?_⟩
        cases hb : bc.dirty_mempool
        · rfl
        · exact absurd (hd hb) (List.not_mem_nil _)
      · intro out h
        rw [goStep_nil] at h
        exact Sum.noConfusion h
  | cons t rest ih =>
      intro bc acc hinv hd
      cases t with
      | prune =>
          by_cases hb : bc.dirty_mempool = true
          · have hif : (if bc.dirty_mempool then bc.prune_invalid_transactions else bc) =
                bc.prune_invalid_transactions := by simp [hb]
            have hp := prune_invCore hinv
            have hdNext : DirtyOK bc.prune_invalid_transactions rest := by
              intro hcontra
              rw [hp.2] at hcontra
              cases hcontra
            constructor
            · intro r h
              rw [goStep_prune, hif] at h
              exact (ih _ acc hp.1 hdNext).1 r h
            · intro out h
              rw [goStep_prune, hif] at h
              exact (ih _ acc hp.1 hdNext).2 out h
          · have hif : (if bc.dirty_mempool then bc.prune_invalid_transactions else bc) =
                bc := by simp [hb]
            have hdNext : DirtyOK bc rest := fun hcontra => absurd hcontra hb
            constructor
            · intro r h
              rw [goStep_prune, hif] at h
              exact (ih _ acc hinv hdNext).1 r h
            · intro out h
              rw [goStep_prune, hif] at h
              exact (ih _ acc hinv hdNext).2 out h
      | blk block =>
          have hdRest : DirtyOK bc rest := by
            intro hb
            rcases List.mem_cons.mp (hd hb) with h1 | h1
            · exact GTask.noConfusion h1
            · exact h1
          constructor
          · intro r h
            rw [goStep_blk] at h
            cases htry : tryInsertBlock C bc block with
            | reject =>
                rw [htry] at h
                exact (ih _ acc hinv hdRest).1 r h
            | orphaned bc1 =>
                rw [htry] at h
                obtain ⟨-, -, heq⟩ := tryInsertBlock_orphaned_inv htry
                have hinv1 : InvCore C bc1 := heq ▸ orphanAdd_invCore hinv
                have hd1 : DirtyOK bc1 rest := by
                  intro hb
                  apply hdRest
                  rw [heq] at hb
                  exact hb
                exact (ih _ acc hinv1 hd1).1 r h
            | accepted bc3 children =>
                rw [htry] at h
                exact Sum.noConfusion h
          · intro out h
            rw [goStep_blk] at h
            cases htry : tryInsertBlock C bc block with
            | reject =>
                rw [htry] at h
                exact (ih _ acc hinv hdRest).2 out h
            | orphaned bc1 =>
                rw [htry] at h
                obtain ⟨-, -, heq⟩ := tryInsertBlock_orphaned_inv htry
                have hinv1 : InvCore C bc1 := heq ▸ orphanAdd_invCore hinv
                have hd1 : DirtyOK bc1 rest := by
                  intro hb
                  apply hdRest
                  rw [heq] at hb
                  exact hb
                exact (ih _ acc hinv1 hd1).2 out h
            | accepted bc3 children =>
                rw [htry] at h
                cases h
                obtain ⟨pb, ph, pst, ns, h1, h2, -, h4, hbc3, -⟩ :=
                  tryInsertBlock_accepted_inv htry
                refine ⟨hbc3 ▸ commitBlock_invCore hinv h1 h2 h4, ?_⟩
                intro _
                exact List.mem_append_right _ (List.mem_cons_self _ _)

theorem go_inv (C : Crypto) :
    ∀ (fuel : Nat) (bc : Blockchain) (tasks : List GTask) (acc : List H256),
      InvCore C bc → DirtyOK bc tasks → psi bc tasks < fuel →
      InvCore C (go C fuel bc tasks acc).1 ∧
        (go C fuel bc tasks acc).1.dirty_mempool = false := by
  intro fuel
  induction fuel with
  | zero =>
      intro bc tasks acc _ _ hpsi
      exact absurd hpsi (Nat.not_lt_zero _)
  | succ f ih =>
      intro bc tasks acc hinv hd hpsi
      have hgo : go C (f + 1) bc tasks acc =
          match goStep C bc tasks acc with
          | Sum.inl r => r
          | Sum.inr (bc2, tasks2, acc2) => go C f bc2 tasks2 acc2 := rfl
      cases hgs : goStep C bc tasks acc with
      | inl r =>
          rw [hgo, hgs]
          exact (goStep_inv C tasks bc acc hinv hd).1 r hgs
      | inr out =>
          rcases out with ⟨bc2, tasks2, acc2⟩
          rw [hgo, hgs]
          have h2 := (goStep_inv C tasks bc acc hinv hd).2 _ hgs
          have hp : psi bc2 tasks2 < psi bc tasks := goStep_inr_psi C tasks bc acc hgs
          exact ih bc2 tasks2 acc2 h2.1 h2.2 (by omega)

theorem insert_block_engineInv {C : Crypto} {bc : Blockchain} {block : Block}
    (h : EngineInv C bc) :
    EngineInv C (Blockchain.insert_block_with_validation C bc block).1 := by
  unfold Blockchain.insert_block_with_validation
  have hd : DirtyOK bc [GTask.blk block] := by
    intro hb
    rw [h.2] at hb
    cases hb
  have hpsi : psi bc [GTask.blk block] < totalOrphans bc.orphanage + 2 := by
    show totalOrphans bc.orphanage + countBlk [GTask.blk block] <
      totalOrphans bc.orphanage + 2
    have hcnt : countBlk [GTask.blk block] = 1 := rfl
    rw [hcnt]
    omega
  exact go_inv C (totalOrphans bc.orphanage + 2) bc [GTask.blk block] [] h.1 hd hpsi

theorem insert_tx_engineInv {C : Crypto} {bc : Blockchain} {tx : SignedTransaction}
    (h : EngineInv C bc) :
    EngineInv C (Blockchain.insert_transaction_with_validation C bc tx).1 := by
  unfold Blockchain.insert_transaction_with_validation
  by_cases hdup : (bc.get_transaction (C.hashTx tx)).isSome
  · rw [if_pos hdup]
    exact h
  · rw [if_neg hdup]
    by_cases hsig : tx.verify_signature C = true
    · have hns : ¬ ¬ tx.verify_signature C = true := fun hc => hc hsig
      rw [if_neg hns]
      cases htd : bc.tip_data with
      | none => exact h
      | some e =>
          rcases e with ⟨tB0, tht0, tst0⟩
          have he0 : lookupA bc.hash_to_block bc.tip = some (tB0, tht0, tst0) := htd
          by_cases hchk : tst0.check_transaction_validity tx.raw_transaction = true
          · simp only [hchk, eq_self_iff_true, if_true]
            refine ⟨⟨h.1.tip_mem, h.1.genesis_mem, h.1.parent_link, h.1.tip_max, ?_, ?_⟩, h.2⟩
            · intro p hp
              rcases mem_insertA hp with h1 | h1
              · rw [h1]
                exact hsig
              · exact h.1.mempool_sig p h1
            · intro hdirty p hp tB tht tst hlk
              rw [he0] at hlk
              cases hlk
              rcases mem_insertA hp with h1 | h1
              · rw [h1]
                exact hchk
              · exact h.1.mempool_valid h.2 p h1 tB0 tht0 tst0 he0
          · simp only [hchk, if_false]
            exact h
    · rw [if_pos hsig]
      exact h

theorem new_engineInv (C : Crypto) : EngineInv C (Blockchain.new C) := by
  have hself : lookupA (Blockchain.new C).hash_to_block (C.hashBlock Block.genesis) =
      some (Block.genesis, 0, State.ico C) := by
    simp [Blockchain.new, lookupA]
  refine ⟨⟨?_, hself, ?_, ?_, ?_, ?_⟩, rfl⟩
  · rw [show (Blockchain.new C).tip = C.hashBlock Block.genesis from rfl, hself]
    rfl
  · intro h B ht st hlk hng
    simp only [Blockchain.new, lookupA] at hlk
    by_cases hh : h = C.hashBlock Block.genesis
    · exact absurd hh hng
    · rw [if_neg hh] at hlk
      cases hlk
  · intro h B ht st hlk tB tht tst hlkT
    simp only [Blockchain.new, lookupA] at hlk
    by_cases hh : h = C.hashBlock Block.genesis
    · rw [if_pos hh] at hlk
      cases hlk
      rw [show (Blockchain.new C).tip = C.hashBlock Block.genesis from rfl, hself] at hlkT
      cases hlkT
      exact Nat.le_refl _
    · rw [if_neg hh] at hlk
      cases hlk
  · intro p hp
    cases hp
  · intro _ p hp
    cases hp

theorem runCalls_engineInv (C : Crypto) (calls : List EngineCall) :
    EngineInv C (runCalls C calls) := by
  unfold runCalls
  have : ∀ (cs : List EngineCall) (bc : Blockchain), EngineInv C bc →
      EngineInv C (cs.foldl (applyCall C) bc) := by
    intro cs
    induction cs with
    | nil => intro bc h; exact h
    | cons c rest ih =>
        intro bc h
        have h2 : EngineInv C (applyCall C bc c) := by
          cases c with
          | insertBlock b => exact insert_block_engineInv h
          | insertTx tx => exact insert_tx_engineInv h
        exact ih _ h2
  exact this calls (Blockchain.new C) (new_engineInv C)

/-! Further helper lemmas for the per-claim proofs. -/

theorem eraseA_eq_of_lookup_none {α β : Type} [DecidableEq α] {m : List (α × β)} {k : α}
    (h : lookupA m k = none) : eraseA m k = m := by
  induction m with
  | nil => rfl
  | cons p rest ih =>
      rcases p with ⟨a, b⟩
      by_cases ha : k = a
      · rw [lookupA, if_pos ha] at h
        cases h
      · rw [lookupA, if_neg ha] at h
        have hb : ¬ a = k := fun hk => ha hk.symm
        rw [eraseA, if_neg hb, ih h]

theorem dirty_branch_blocks (bc : Blockchain) :
    (if bc.dirty_mempool then bc.prune_invalid_transactions else bc).hash_to_block =
      bc.hash_to_block := by
  by_cases hd : bc.dirty_mempool
  · simp [hd, (prune_fields bc).1]
  · simp [hd]

theorem go_succ (C : Crypto) (fuel : Nat) (bc : Blockchain) (tasks : List GTask)
    (acc : List H256) :
    go C (fuel + 1) bc tasks acc =
      match goStep C bc tasks acc with
      | Sum.inl r => r
      | Sum.inr (bc2, tasks2, acc2) => go C fuel bc2 tasks2 acc2 := rfl

theorem goStep_blocks_mono (C : Crypto) :
    ∀ (tasks : List GTask) (bc : Blockchain) (acc : List H256) (h : H256)
      (e : Block × Nat × State), lookupA bc.hash_to_block h = some e →
      (∀ r, goStep C bc tasks acc = Sum.inl r → lookupA r.1.hash_to_block h = some e) ∧
      (∀ out, goStep C bc tasks acc = Sum.inr out → lookupA out.1.hash_to_block h = some e) := by
  intro tasks
  induction tasks with
  | nil =>
      intro bc acc h e he
      constructor
      · intro r hr
        rw [goStep_nil] at hr
        cases hr
        exact he
      · intro out hout
        rw [goStep_nil] at hout
        exact Sum.noConfusion hout
  | cons t rest ih =>
      intro bc acc h e he
      cases t with
      | prune =>
          have he2 : lookupA (if bc.dirty_mempool then bc.prune_invalid_transactions
              else bc).hash_to_block h = some e := by
            rw [dirty_branch_blocks]
            exact he
          constructor
          · intro r hr
            rw [goStep_prune] at hr
            exact (ih _ acc h e he2).1 r hr
          · intro out hout
            rw [goStep_prune] at hout
            exact (ih _ acc h e he2).2 out hout
      | blk block =>
          constructor
          · intro r hr
            rw [goStep_blk] at hr
            cases htry : tryInsertBlock C bc block with
            | reject =>
                rw [htry] at hr
                exact (ih _ acc h e he).1 r hr
            | orphaned bc1 =>
                rw [htry] at hr
                obtain ⟨-, -, heq⟩ := tryInsertBlock_orphaned_inv htry
                have he2 : lookupA bc1.hash_to_block h = some e := by
                  rw [heq]
                  exact he
                exact (ih _ acc h e he2).1 r hr
            | accepted bc3 children =>
                rw [htry] at hr
                exact Sum.noConfusion hr
          · intro out hout
            rw [goStep_blk] at hout
            cases htry : tryInsertBlock C bc block with
            | reject =>
                rw [htry] at hout
                exact (ih _ acc h e he).2 out hout
            | orphaned bc1 =>
                rw [htry] at hout
                obtain ⟨-, -, heq⟩ := tryInsertBlock_orphaned_inv htry
                have he2 : lookupA bc1.hash_to_block h = some e := by
                  rw [heq]
                  exact he
                exact (ih _ acc h e he2).2 out hout
            | accepted bc3 children =>
                rw [htry] at hout
                cases hout
                obtain ⟨pb, ph, pst, ns, h1, -, -, -, hbc3, -⟩ :=
                  tryInsertBlock_accepted_inv htry
                have hne : ¬ h = C.hashBlock block := by
                  intro hEq
                  rw [hEq, h1] at he
                  cases he
                rw [hbc3, (commitBlock_proj C bc block ph ns).2.2.1,
                  lookupA_insertA_ne _ _ _ _ hne]
                exact he

theorem go_blocks_mono (C : Crypto) :
    ∀ (fuel : Nat) (bc : Blockchain) (tasks : List GTask) (acc : List H256)
      (h : H256) (e : Block × Nat × State), lookupA bc.hash_to_block h = some e →
      lookupA (go C fuel bc tasks acc).1.hash_to_block h = some e := by
  intro fuel
  induction fuel with
  | zero =>
      intro bc tasks acc h e he
      exact he
  | succ f ih =>
      intro bc tasks acc h e he
      rw [go_succ]
      cases hgs : goStep C bc tasks acc with
      | inl r => exact (goStep_blocks_mono C tasks bc acc h e he).1 r hgs
      | inr out =>
          rcases out with ⟨bc2, tasks2, acc2⟩
          exact ih bc2 tasks2 acc2 h e
            ((goStep_blocks_mono C tasks bc acc h e he).2 _ hgs)

theorem insert_block_of_reject {C : Crypto} {bc : Blockchain} {block : Block}
    (h : tryInsertBlock C bc block = StepOut.reject) :
    Blockchain.insert_block_with_validation C bc block = (bc, []) := by
  unfold Blockchain.insert_block_with_validation
  rw [show totalOrphans bc.orphanage + 2 = (totalOrphans bc.orphanage + 1) + 1 from rfl,
    go_succ]
  rw [goStep_blk, h, goStep_nil]

theorem insert_block_of_orphaned {C : Crypto} {bc : Blockchain} {block : Block}
    {bc1 : Blockchain} (h : tryInsertBlock C bc block = StepOut.orphaned bc1) :
    Blockchain.insert_block_with_validation C bc block = (bc1, []) := by
  unfold Blockchain.insert_block_with_validation
  rw [show totalOrphans bc.orphanage + 2 = (totalOrphans bc.orphanage + 1) + 1 from rfl,
    go_succ]
  rw [goStep_blk, h, goStep_nil]
  rfl

theorem insert_block_of_accepted {C : Crypto} {bc : Blockchain} {block : Block}
    {bc3 : Blockchain} {children : List Block}
    (h : tryInsertBlock C bc block = StepOut.accepted bc3 children) :
    Blockchain.insert_block_with_validation C bc block =
      go C (totalOrphans bc.orphanage + 1) bc3
        (children.map GTask.blk ++ [GTask.prune]) [C.hashBlock block] := by
  unfold Blockchain.insert_block_with_validation
  rw [show totalOrphans bc.orphanage + 2 = (totalOrphans bc.orphanage + 1) + 1 from rfl,
    go_succ]
  rw [goStep_blk, h]
  rfl

theorem check_transaction_validity_iff (s : State) (t : RawTransaction) :
    s.check_transaction_validity t = true ↔
      ∃ acc, lookupA s.pub_key_to_acc_info t.from_addr = some acc ∧
        acc.nonce = t.nonce ∧ t.value ≤ acc.balance := by
  unfold State.check_transaction_validity
  cases h : lookupA s.pub_key_to_acc_info t.from_addr with
  | none => simp
  | some acc => simp [Bool.and_eq_true]

theorem verify_signature_iff (C : Crypto) (tx : SignedTransaction) :
    tx.verify_signature C = true ↔
      C.ed25519Verify tx.pub_key tx.raw_transaction tx.signature = true ∧
      C.h160FromPubkey tx.pub_key = tx.raw_transaction.from_addr := by
  unfold SignedTransaction.verify_signature
  simp [Bool.and_eq_true]

/-!
The claim theorems.
-/

/-- C1: starting from Blockchain::new (genesis only), after any sequence of
insert_block_with_validation and insert_transaction_with_validation calls,
the tip hash is a key of the block map and its height is the maximum of all
stored heights; the genesis entry is stored at height 0 (with the ICO
state); and every stored non-genesis block's parent is a key of the block
map, its stored height is the parent's height plus one, and its stored
state is the successful application of its raw transactions to the parent's
stored state. -/
theorem c1_engine_state_invariants (C : Crypto) (calls : List EngineCall) :
    ((lookupA (runCalls C calls).hash_to_block (runCalls C calls).tip).isSome ∧
      (∀ h B ht st, lookupA (runCalls C calls).hash_to_block h = some (B, ht, st) →
        ∀ tB tht tst,
          lookupA (runCalls C calls).hash_to_block (runCalls C calls).tip =
            some (tB, tht, tst) → ht ≤ tht)) ∧
    lookupA (runCalls C calls).hash_to_block (C.hashBlock Block.genesis) =
      some (Block.genesis, 0, State.ico C) ∧
    (∀ h B ht st, lookupA (runCalls C calls).hash_to_block h = some (B, ht, st) →
      ¬ h = C.hashBlock Block.genesis →
      ∃ pB pht pst,
        lookupA (runCalls C calls).hash_to_block B.header.parent = some (pB, pht, pst) ∧
        ht = pht + 1 ∧
        pst.update_with_transactions
          (B.content.transactions.map (fun s => s.raw_transaction)) = some st) := by
  have h := runCalls_engineInv C calls
  exact ⟨⟨h.1.tip_mem, h.1.tip_max⟩, h.1.genesis_mem, h.1.parent_link⟩

/-- C2: after any sequence of engine calls starting from Blockchain::new,
every transaction remaining in the mempool is signature-authentic (its
Ed25519 signature verifies under its pubkey and the address derived from
the pubkey equals the raw transaction's from address) and its raw
transaction is valid as a single next transaction against the tip's state:
the sender is present, with matching nonce and sufficient balance. -/
theorem c2_mempool_soundness (C : Crypto) (calls : List EngineCall) :
    ∀ p ∈ (runCalls C calls).mempool,
      (C.ed25519Verify p.2.pub_key p.2.raw_transaction p.2.signature = true ∧
        C.h160FromPubkey p.2.pub_key = p.2.raw_transaction.from_addr) ∧
      (∀ tB tht tst,
        lookupA (runCalls C calls).hash_to_block (runCalls C calls).tip =
          some (tB, tht, tst) →
        ∃ acc, lookupA tst.pub_key_to_acc_info p.2.raw_transaction.from_addr = some acc ∧
          acc.nonce = p.2.raw_transaction.nonce ∧
          p.2.raw_transaction.value ≤ acc.balance) := by
  intro p hp
  have h := runCalls_engineInv C calls
  constructor
  · exact (verify_signature_iff C p.2).mp (h.1.mempool_sig p hp)
  · intro tB tht tst hlk
    exact (check_transaction_validity_iff tst p.2.raw_transaction).mp
      (h.1.mempool_valid h.2 p hp tB tht tst hlk)

/-- C3: insert_transaction_with_validation returns true exactly when the
transaction's hash is not already in the mempool, the transaction is
signature-authentic, and its raw transaction is valid against the tip's
state; on true the transaction is inserted into the mempool, on false the
engine (in particular the mempool) is unchanged; and a transaction whose
pubkey-derived address differs from its from address is rejected regardless
of the Ed25519 verification outcome. -/
theorem c3_insert_tx_validated (C : Crypto) (bc : Blockchain) (tx : SignedTransaction)
    (tB : Block) (tht : Nat) (tst : State)
    (htip : lookupA bc.hash_to_block bc.tip = some (tB, tht, tst)) :
    ((Blockchain.insert_transaction_with_validation C bc tx).2 = true ↔
      lookupA bc.mempool (C.hashTx tx) = none ∧
        tx.verify_signature C = true ∧
        tst.check_transaction_validity tx.raw_transaction = true) ∧
    ((Blockchain.insert_transaction_with_validation C bc tx).2 = true →
      (Blockchain.insert_transaction_with_validation C bc tx).1.mempool =
        insertA bc.mempool (C.hashTx tx) tx) ∧
    ((Blockchain.insert_transaction_with_validation C bc tx).2 = false →
      (Blockchain.insert_transaction_with_validation C bc tx).1 = bc) ∧
    (¬ C.h160FromPubkey tx.pub_key = tx.raw_transaction.from_addr →
      Blockchain.insert_transaction_with_validation C bc tx = (bc, false)) := by
  have htd : bc.tip_data = some (tB, tht, tst) := htip
  have Hdup : (lookupA bc.mempool (C.hashTx tx)).isSome →
      Blockchain.insert_transaction_with_validation C bc tx = (bc, false) := by
    intro hdup
    have hdup2 : (bc.get_transaction (C.hashTx tx)).isSome = true := hdup
    unfold Blockchain.insert_transaction_with_validation
    rw [if_pos hdup2]
  have Hnsig : ¬ tx.verify_signature C = true →
      Blockchain.insert_transaction_with_validation C bc tx = (bc, false) := by
    intro hnsig
    unfold Blockchain.insert_transaction_with_validation
    by_cases hdup : (bc.get_transaction (C.hashTx tx)).isSome
    · rw [if_pos hdup]
    · rw [if_neg hdup, if_pos hnsig]
  have Hnochk : lookupA bc.mempool (C.hashTx tx) = none → tx.verify_signature C = true →
      ¬ tst.check_transaction_validity tx.raw_transaction = true →
      Blockchain.insert_transaction_with_validation C bc tx = (bc, false) := by
    intro hnone hsig hnochk
    unfold Blockchain.insert_transaction_with_validation
    have hdup : ¬ (bc.get_transaction (C.hashTx tx)).isSome = true := by
      intro hcontra
      rw [show bc.get_transaction (C.hashTx tx) = lookupA bc.mempool (C.hashTx tx)
        from rfl, hnone] at hcontra
      cases hcontra
    rw [if_neg hdup, if_neg (fun hc => hc hsig), htd]
    simp [hnochk]
  have Hok : lookupA bc.mempool (C.hashTx tx) = none → tx.verify_signature C = true →
      tst.check_transaction_validity tx.raw_transaction = true →
      Blockchain.insert_transaction_with_validation C bc tx =
        ({ bc with mempool := insertA bc.mempool (C.hashTx tx) tx }, true) := by
    intro hnone hsig hchk
    unfold Blockchain.insert_transaction_with_validation
    have hdup : ¬ (bc.get_transaction (C.hashTx tx)).isSome = true := by
      intro hcontra
      rw [show bc.get_transaction (C.hashTx tx) = lookupA bc.mempool (C.hashTx tx)
        from rfl, hnone] at hcontra
      cases hcontra
    rw [if_neg hdup, if_neg (fun hc => hc hsig), htd]
    simp [hchk]
  refine ⟨?_, ?_, ?_, ?_⟩
  · constructor
    · intro htrue
      cases hnone : lookupA bc.mempool (C.hashTx tx) with
      | some v =>
          rw [Hdup (by rw [hnone]; rfl)] at htrue
          cases htrue
      | none =>
          by_cases hsig : tx.verify_signature C = true
          · by_cases hchk : tst.check_transaction_validity tx.raw_transaction = true
            · exact ⟨rfl, hsig, hchk⟩
            · rw [Hnochk hnone hsig hchk] at htrue
              cases htrue
          · rw [Hnsig hsig] at htrue
            cases htrue
    · rintro ⟨hnone, hsig, hchk⟩
      rw [Hok hnone hsig hchk]
  · intro htrue
    cases hnone : lookupA bc.mempool (C.hashTx tx) with
    | some v =>
        rw [Hdup (by rw [hnone]; rfl)] at htrue
        cases htrue
    | none =>
        by_cases hsig : tx.verify_signature C = true
        · by_cases hchk : tst.check_transaction_validity tx.raw_transaction = true
          · rw [Hok hnone hsig hchk]
          · rw [Hnochk hnone hsig hchk] at htrue
            cases htrue
        · rw [Hnsig hsig] at htrue
          cases htrue
  · intro hfalse
    cases hnone : lookupA bc.mempool (C.hashTx tx) with
    | some v =>
        rw [Hdup (by rw [hnone]; rfl)]
    | none =>
        by_cases hsig : tx.verify_signature C = true
        · by_cases hchk : tst.check_transaction_validity tx.raw_transaction = true
          · rw [Hok hnone hsig hchk] at hfalse
            cases hfalse
          · rw [Hnochk hnone hsig hchk]
        · rw [Hnsig hsig]
  · intro hmis
    apply Hnsig
    intro hsig
    exact hmis ((verify_signature_iff C tx).mp hsig).2

/-- C8: update_in_place fails leaving the state untouched exactly when the
validity check fails (sender absent, nonce mismatch, or insufficient
balance); on success it bumps the sender's nonce by one (u32 arithmetic),
debits the sender by the value, credits the receiver (u64 arithmetic),
default-inserting an absent receiver at nonce 0 and balance 0, and leaves
every other account untouched; a self-transfer advances the nonce while
leaving the (in-range) balance unchanged. -/
theorem c8_update_in_place (s : State) (t : RawTransaction) :
    (s.check_transaction_validity t = false → s.update_in_place t = (s, false)) ∧
    (∀ spender, lookupA s.pub_key_to_acc_info t.from_addr = some spender →
      spender.nonce = t.nonce → t.value ≤ spender.balance →
      (s.update_in_place t).2 = true ∧
      (¬ t.to_addr = t.from_addr →
        lookupA (s.update_in_place t).1.pub_key_to_acc_info t.from_addr =
          some { nonce := (spender.nonce + 1) % 2 ^ 32,
                 balance := spender.balance - t.value } ∧
        lookupA (s.update_in_place t).1.pub_key_to_acc_info t.to_addr =
          some { nonce := ((lookupA s.pub_key_to_acc_info t.to_addr).getD
                    AccountInfo.new).nonce,
                 balance := (((lookupA s.pub_key_to_acc_info t.to_addr).getD
                    AccountInfo.new).balance + t.value) % 2 ^ 64 }) ∧
      (t.to_addr = t.from_addr → spender.balance < 2 ^ 64 →
        lookupA (s.update_in_place t).1.pub_key_to_acc_info t.from_addr =
          some { nonce := (spender.nonce + 1) % 2 ^ 32, balance := spender.balance }) ∧
      (∀ a, ¬ a = t.from_addr → ¬ a = t.to_addr →
        lookupA (s.update_in_place t).1.pub_key_to_acc_info a =
          lookupA s.pub_key_to_acc_info a)) := by
  constructor
  · intro hfail
    unfold State.update_in_place
    split
    · rfl
    next spender heq =>
      split
      · rfl
      next hnn =>
        split
        · rfl
        next hnv =>
          exfalso
          have h1 : spender.nonce = t.nonce := not_not.mp hnn
          have h2 : t.value ≤ spender.balance := Nat.not_lt.mp hnv
          unfold State.check_transaction_validity at hfail
          rw [heq] at hfail
          simp [h1, h2] at hfail
  · intro spender hlk hn hv
    have hupd : s.update_in_place t =
        (State.mk (insertA
            (insertA s.pub_key_to_acc_info t.from_addr
              (AccountInfo.mk ((spender.nonce + 1) % 2 ^ 32) (spender.balance - t.value)))
            t.to_addr
            (AccountInfo.mk
              ((lookupA
                  (insertA s.pub_key_to_acc_info t.from_addr
                    (AccountInfo.mk ((spender.nonce + 1) % 2 ^ 32)
                      (spender.balance - t.value)))
                  t.to_addr).getD AccountInfo.new).nonce
              ((((lookupA
                  (insertA s.pub_key_to_acc_info t.from_addr
                    (AccountInfo.mk ((spender.nonce + 1) % 2 ^ 32)
                      (spender.balance - t.value)))
                  t.to_addr).getD AccountInfo.new).balance + t.value) % 2 ^ 64))),
          true) := by
      simp only [State.update_in_place, hlk]
      rw [if_neg (fun hc => hc hn), if_neg (fun hc => absurd hv (by omega))]
    refine ⟨by rw [hupd], ?_, ?_, ?_⟩
    · intro hne
      rw [hupd]
      constructor
      · show lookupA (insertA _ t.to_addr _) t.from_addr = _
        rw [lookupA_insertA_ne _ _ _ _ (fun hc => hne hc.symm), lookupA_insertA_self]
      · show lookupA (insertA _ t.to_addr _) t.to_addr = _
        rw [lookupA_insertA_self, lookupA_insertA_ne _ _ _ _ hne]
    · intro heq hb
      rw [hupd, show t.from_addr = t.to_addr from heq.symm]
      show lookupA (insertA _ t.to_addr _) t.to_addr = _
      rw [lookupA_insertA_self, lookupA_insertA_self]
      simp [Nat.sub_add_cancel hv, Nat.mod_eq_of_lt hb]
      omega
    · intro a hna hnb
      rw [hupd]
      show lookupA (insertA (insertA _ t.from_addr _) t.to_addr _) a = _
      rw [lookupA_insertA_ne _ _ _ _ hnb, lookupA_insertA_ne _ _ _ _ hna]

/-- C6: the genesis block's difficulty is the all-zero H256, which is the
least element of the big-endian order on hashes; consequently, on a freshly
created blockchain, every block whose parent is the genesis block and whose
hash is not the all-zero H256 is rejected by insert_block_with_validation
(the engine is unchanged and the returned novelty list is empty, hence does
not contain the block), because validation requires hash(B) ≤ the parent's
difficulty. -/
theorem c6_genesis_difficulty_rejects_all (C : Crypto) (b : Block)
    (hpar : b.header.parent = C.hashBlock Block.genesis)
    (hnz : ¬ C.hashBlock b = 0) :
    (Block.genesis.header.difficulty = default_difficulty ∧ default_difficulty = 0 ∧
      (∀ h : H256, default_difficulty ≤ h)) ∧
    Blockchain.insert_block_with_validation C (Blockchain.new C) b =
      (Blockchain.new C, []) := by
  refine ⟨⟨rfl, rfl, fun h => Nat.zero_le h⟩, ?_⟩
  have hblocks : (Blockchain.new C).hash_to_block =
      [(C.hashBlock Block.genesis, (Block.genesis, 0, State.ico C))] := rfl
  by_cases hdup : C.hashBlock b = C.hashBlock Block.genesis
  · apply insert_block_of_reject
    apply tryInsertBlock_dup
    rw [hblocks]
    show (if C.hashBlock b = C.hashBlock Block.genesis then
      some (Block.genesis, 0, State.ico C) else lookupA [] (C.hashBlock b)).isSome = true
    rw [if_pos hdup]
    rfl
  · apply insert_block_of_reject
    have h1 : lookupA (Blockchain.new C).hash_to_block (C.hashBlock b) = none := by
      rw [hblocks]
      show (if C.hashBlock b = C.hashBlock Block.genesis then
        some (Block.genesis, 0, State.ico C) else lookupA [] (C.hashBlock b)) = none
      rw [if_neg hdup]
      rfl
    have h2 : lookupA (Blockchain.new C).hash_to_block b.header.parent =
        some (Block.genesis, 0, State.ico C) := by
      rw [hblocks, hpar]
      show (if C.hashBlock Block.genesis = C.hashBlock Block.genesis then
        some (Block.genesis, 0, State.ico C) else lookupA [] (C.hashBlock Block.genesis)) =
        some (Block.genesis, 0, State.ico C)
      rw [if_pos rfl]
    have h3 : Block.genesis.header.difficulty < C.hashBlock b :=
      Nat.pos_of_ne_zero hnz
    exact tryInsertBlock_pow h1 h2 h3

/-- C9 (amended): calling insert_block_with_validation twice on the same
block adds it to the block map at most once and the second call returns an
empty novelty list, leaving the block map, tip, mempool and dirty flag
unchanged; moreover, whenever the block is present in the block map after
the first call (in particular whenever the first call accepted it), the
second call leaves the entire engine state unchanged.  (The orphanage is
excluded in general: a block with an unknown parent is appended to its
orphan list again by the second call.) -/
theorem c9_insert_block_idempotent (C : Crypto) (bc : Blockchain) (B : Block) :
    (Blockchain.insert_block_with_validation C
        (Blockchain.insert_block_with_validation C bc B).1 B).2 = [] ∧
    (Blockchain.insert_block_with_validation C
        (Blockchain.insert_block_with_validation C bc B).1 B).1.hash_to_block =
      (Blockchain.insert_block_with_validation C bc B).1.hash_to_block ∧
    (Blockchain.insert_block_with_validation C
        (Blockchain.insert_block_with_validation C bc B).1 B).1.tip =
      (Blockchain.insert_block_with_validation C bc B).1.tip ∧
    (Blockchain.insert_block_with_validation C
        (Blockchain.insert_block_with_validation C bc B).1 B).1.mempool =
      (Blockchain.insert_block_with_validation C bc B).1.mempool ∧
    (Blockchain.insert_block_with_validation C
        (Blockchain.insert_block_with_validation C bc B).1 B).1.dirty_mempool =
      (Blockchain.insert_block_with_validation C bc B).1.dirty_mempool ∧
    ((lookupA (Blockchain.insert_block_with_validation C bc B).1.hash_to_block
        (C.hashBlock B)).isSome →
      (Blockchain.insert_block_with_validation C
          (Blockchain.insert_block_with_validation C bc B).1 B).1 =
        (Blockchain.insert_block_with_validation C bc B).1) := by
  cases htry : tryInsertBlock C bc B with
  | reject =>
      have h1 := insert_block_of_reject htry
      simp only [h1]
      refine ⟨by simp, by simp, by simp, by simp, by simp, ?_⟩
      intro _
      simp
  | orphaned bc1 =>
      obtain ⟨hA, hB, heq⟩ := tryInsertBlock_orphaned_inv htry
      have h1 := insert_block_of_orphaned htry
      have hA1 : lookupA bc1.hash_to_block (C.hashBlock B) = none := by
        rw [heq]
        exact hA
      have hB1 : lookupA bc1.hash_to_block B.header.parent = none := by
        rw [heq]
        exact hB
      have h2 := insert_block_of_orphaned (tryInsertBlock_orphan hA1 hB1)
      simp only [h1]
      simp only [h2]
      refine ⟨by simp, by simp [Blockchain.orphanAdd], by simp [Blockchain.orphanAdd],
        by simp [Blockchain.orphanAdd], by simp [Blockchain.orphanAdd], ?_⟩
      intro hcon
      rw [hA1] at hcon
      simp at hcon
  | accepted bc3 children =>
      obtain ⟨pb, ph, pst, ns, h1n, h2p, -, -, hbc3, -⟩ := tryInsertBlock_accepted_inv htry
      have hmem : lookupA (Blockchain.insert_block_with_validation C bc B).1.hash_to_block
          (C.hashBlock B) = some (B, ph + 1, ns) := by
        rw [insert_block_of_accepted htry]
        apply go_blocks_mono
        rw [hbc3, (commitBlock_proj C bc B ph ns).2.2.1]
        exact lookupA_insertA_self _ _ _
      have htry2 : tryInsertBlock C (Blockchain.insert_block_with_validation C bc B).1 B =
          StepOut.reject := by
        apply tryInsertBlock_dup
        rw [hmem]
        rfl
      have h2 := insert_block_of_reject htry2
      rw [h2]
      exact ⟨rfl, rfl, rfl, rfl, rfl, fun _ => rfl⟩

/-- C5: the peer message type declared in network/message.rs has exactly
the five variants Ping, Pong, NewBlockHashes, GetBlocks and Blocks — it
lacks the three transaction-gossip variants (NewTransactionHashes,
GetTransactions, Transactions) that the spec's union has and that the
worker and transaction generator in the same crate construct and match on,
so the declared type cannot carry the eight-variant union the claim
describes. -/
theorem c5_message_union_mismatch :
    (∀ m : Message, (∃ s, m = Message.Ping s) ∨ (∃ s, m = Message.Pong s) ∨
      (∃ l, m = Message.NewBlockHashes l) ∨ (∃ l, m = Message.GetBlocks l) ∨
      (∃ l, m = Message.Blocks l)) ∧
    Fintype.card MessageTag = 5 ∧ Fintype.card MessageSpecTag = 8 ∧
    ¬ Fintype.card MessageTag = Fintype.card MessageSpecTag := by
  refine ⟨?_, by decide, by decide, by decide⟩
  intro m
  cases m with
  | Ping s => exact Or.inl ⟨s, rfl⟩
  | Pong s => exact Or.inr (Or.inl ⟨s, rfl⟩)
  | NewBlockHashes l => exact Or.inr (Or.inr (Or.inl ⟨l, rfl⟩))
  | GetBlocks l => exact Or.inr (Or.inr (Or.inr (Or.inl ⟨l, rfl⟩)))
  | Blocks l => exact Or.inr (Or.inr (Or.inr (Or.inr ⟨l, rfl⟩)))

/-- C9 (counterexample): inserting the same unknown-parent block twice does
not leave the engine state unchanged — the second call appends a second
copy of the block to its orphan list — refuting the claim that the second
call leaves the entire engine state unchanged. -/
theorem c9_counterexample :
    ¬ ((Blockchain.insert_block_with_validation testCrypto
        (Blockchain.insert_block_with_validation testCrypto
          (Blockchain.new testCrypto) fixOrphan).1 fixOrphan).1 =
      (Blockchain.insert_block_with_validation testCrypto
        (Blockchain.new testCrypto) fixOrphan).1) := by decide

/-- C4: the miner's commit path broadcasts unconditionally.  With the block
fixX already in the chain (as if received from a peer during the search),
the validated insert returns an empty novelty list, yet minerCommit still
broadcasts NewBlockHashes([hash]); the code ignores the insert's return
value (miner.rs lines 141-145), contradicting the claim that a rejected
commit is not broadcast. -/
theorem c4_miner_broadcasts_rejected_block :
    (Blockchain.insert_block_with_validation testCrypto
        (Blockchain.insert_block_with_validation testCrypto fixBase fixX).1 fixX).2 = [] ∧
    (minerCommit testCrypto
        (Blockchain.insert_block_with_validation testCrypto fixBase fixX).1 fixX).2.2 =
      [Message.NewBlockHashes [testCrypto.hashBlock fixX]] := by decide

/-- C10: the Merkle round-trip fails.  Over three leaves, the proof for
index 1 does not verify (proof() consumes the index bits least-significant
first while walking from the root, so it returns the proof of the
bit-reversed index, contradicting its own comment); index 0, whose bit
string is a palindrome, still verifies. -/
theorem c10_merkle_roundtrip_fails :
    verify Nat.pair merkleTree3.rootHash 1 (merkleTree3.proof 1) 1 3 = false ∧
    verify Nat.pair merkleTree3.rootHash 0 (merkleTree3.proof 0) 0 3 = true := by decide

theorem eraseA_idem {α β : Type} [DecidableEq α] (m : List (α × β)) (k : α) :
    eraseA (eraseA m k) k = eraseA m k :=
  eraseA_eq_of_lookup_none (lookupA_eraseA_self m k)

theorem eraseA_insertA_self {α β : Type} [DecidableEq α] (m : List (α × β)) (k : α) (v : β) :
    eraseA (insertA m k v) k = eraseA m k := by
  show eraseA ((k, v) :: eraseA m k) k = eraseA m k
  rw [show eraseA ((k, v) :: eraseA m k) k =
    (if (k, v).1 = k then eraseA (eraseA m k) k else (k, v) :: eraseA (eraseA m k) k)
    from rfl]
  rw [if_pos rfl]
  exact eraseA_idem m k

theorem goStep_blk_accepted {C : Crypto} {bc : Blockchain} {block : Block}
    (rest : List GTask) (acc : List H256) {bc3 : Blockchain} {children : List Block}
    (h : tryInsertBlock C bc block = StepOut.accepted bc3 children) :
    goStep C bc (GTask.blk block :: rest) acc =
      Sum.inr (bc3, children.map GTask.blk ++ GTask.prune :: rest,
        acc ++ [C.hashBlock block]) := by
  rw [goStep_blk, h]

theorem go_succ_inl {C : Crypto} {bc : Blockchain} {tasks : List GTask} {acc : List H256}
    {r : Blockchain × List H256} (fuel : Nat) (h : goStep C bc tasks acc = Sum.inl r) :
    go C (fuel + 1) bc tasks acc = r := by
  rw [go_succ, h]

theorem go_succ_inr {C : Crypto} {bc : Blockchain} {tasks : List GTask} {acc : List H256}
    {bc2 : Blockchain} {tasks2 : List GTask} {acc2 : List H256} (fuel : Nat)
    (h : goStep C bc tasks acc = Sum.inr (bc2, tasks2, acc2)) :
    go C (fuel + 1) bc tasks acc = go C fuel bc2 tasks2 acc2 := by
  rw [go_succ, h]

theorem goStep_prune_prune (C : Crypto) (bc : Blockchain) (acc : List H256) :
    ∃ bcf, goStep C bc [GTask.prune, GTask.prune] acc = Sum.inl (bcf, acc) ∧
      bcf.hash_to_block = bc.hash_to_block := by
  refine ⟨_, rfl, ?_⟩
  exact (dirty_branch_blocks _).trans (dirty_branch_blocks bc)

/-- C7: with the base engine state knowing neither block, insert B2 (whose
parent is B1) first: it is buffered in the orphanage and the returned
novelty list is empty.  Then insert B1 (valid against its known parent):
the returned novelty list is [hash(B1), hash(B2)] in that order — the
promoted orphan is re-attempted recursively and its accepted hash appended
— and afterwards both blocks are in the block map. -/
theorem c7_orphan_promotion (C : Crypto) (bc : Blockchain) (B1 B2 : Block)
    (pb : Block) (ph : Nat) (pst st1 st2 : State)
    (hpar2 : B2.header.parent = C.hashBlock B1)
    (hnew1 : lookupA bc.hash_to_block (C.hashBlock B1) = none)
    (hnew2 : lookupA bc.hash_to_block (C.hashBlock B2) = none)
    (hne : ¬ C.hashBlock B2 = C.hashBlock B1)
    (hpar1 : lookupA bc.hash_to_block B1.header.parent = some (pb, ph, pst))
    (hpow1 : ¬ pb.header.difficulty < C.hashBlock B1)
    (hst1 : pst.update_with_transactions
      (B1.content.transactions.map (fun s => s.raw_transaction)) = some st1)
    (hpow2 : ¬ B1.header.difficulty < C.hashBlock B2)
    (hst2 : st1.update_with_transactions
      (B2.content.transactions.map (fun s => s.raw_transaction)) = some st2)
    (horph1 : lookupA bc.orphanage (C.hashBlock B1) = none)
    (horph2 : lookupA bc.orphanage (C.hashBlock B2) = none) :
    Blockchain.insert_block_with_validation C bc B2 = (bc.orphanAdd B2, []) ∧
    (Blockchain.insert_block_with_validation C (bc.orphanAdd B2) B1).2 =
      [C.hashBlock B1, C.hashBlock B2] ∧
    (lookupA (Blockchain.insert_block_with_validation C (bc.orphanAdd B2) B1).1.hash_to_block
      (C.hashBlock B1)).isSome ∧
    (lookupA (Blockchain.insert_block_with_validation C (bc.orphanAdd B2) B1).1.hash_to_block
      (C.hashBlock B2)).isSome := by
  have hp2new : lookupA bc.hash_to_block B2.header.parent = none := by
    rw [hpar2]
    exact hnew1
  have hfirst := insert_block_of_orphaned (tryInsertBlock_orphan hnew2 hp2new)
  have hbc1orph : (bc.orphanAdd B2).orphanage =
      insertA bc.orphanage (C.hashBlock B1) [B2] := by
    show insertA bc.orphanage B2.header.parent
        (((lookupA bc.orphanage B2.header.parent).getD []) ++ [B2]) = _
    rw [hpar2, horph1]
    rfl
  have hA1 : lookupA (bc.orphanAdd B2).hash_to_block (C.hashBlock B1) = none := hnew1
  have hA2 : lookupA (bc.orphanAdd B2).hash_to_block B1.header.parent =
      some (pb, ph, pst) := hpar1
  have htryB1 := tryInsertBlock_accept hA1 hA2 hpow1 hst1
  have hsecond := insert_block_of_accepted htryB1
  have hch1 : (commitBlock C (bc.orphanAdd B2) B1 ph st1).2 = [B2] := by
    rw [(commitBlock_proj C (bc.orphanAdd B2) B1 ph st1).2.1, hbc1orph,
      lookupA_insertA_self]
    rfl
  have hAblocks : (commitBlock C (bc.orphanAdd B2) B1 ph st1).1.hash_to_block =
      insertA bc.hash_to_block (C.hashBlock B1) (B1, ph + 1, st1) := by
    rw [(commitBlock_proj C (bc.orphanAdd B2) B1 ph st1).2.2.1]
    rfl
  have hAorph : (commitBlock C (bc.orphanAdd B2) B1 ph st1).1.orphanage = bc.orphanage := by
    rw [(commitBlock_proj C (bc.orphanAdd B2) B1 ph st1).1, hbc1orph, eraseA_insertA_self,
      eraseA_eq_of_lookup_none horph1]
  have hB2dup : lookupA (commitBlock C (bc.orphanAdd B2) B1 ph st1).1.hash_to_block
      (C.hashBlock B2) = none := by
    rw [hAblocks, lookupA_insertA_ne _ _ _ _ hne]
    exact hnew2
  have hB2par : lookupA (commitBlock C (bc.orphanAdd B2) B1 ph st1).1.hash_to_block
      B2.header.parent = some (B1, ph + 1, st1) := by
    rw [hAblocks, hpar2]
    exact lookupA_insertA_self _ _ _
  have htryB2 := tryInsertBlock_accept hB2dup hB2par hpow2 hst2
  have hch2 : (commitBlock C (commitBlock C (bc.orphanAdd B2) B1 ph st1).1
      B2 (ph + 1) st2).2 = [] := by
    rw [(commitBlock_proj C (commitBlock C (bc.orphanAdd B2) B1 ph st1).1
      B2 (ph + 1) st2).2.1, hAorph, horph2]
    rfl
  have hBblocks : (commitBlock C (commitBlock C (bc.orphanAdd B2) B1 ph st1).1
      B2 (ph + 1) st2).1.hash_to_block =
      insertA (insertA bc.hash_to_block (C.hashBlock B1) (B1, ph + 1, st1))
        (C.hashBlock B2) (B2, ph + 1 + 1, st2) := by
    rw [(commitBlock_proj C (commitBlock C (bc.orphanAdd B2) B1 ph st1).1
      B2 (ph + 1) st2).2.2.1, hAblocks]
  have hfuel : totalOrphans (bc.orphanAdd B2).orphanage + 1 =
      (totalOrphans bc.orphanage + 1) + 1 := by
    rw [hbc1orph, totalOrphans_insertA, eraseA_eq_of_lookup_none horph1]
    simp only [List.length_cons, List.length_nil]
    omega
  obtain ⟨bcf, hgs, hbcf⟩ := goStep_prune_prune C
    (commitBlock C (commitBlock C (bc.orphanAdd B2) B1 ph st1).1 B2 (ph + 1) st2).1
    [C.hashBlock B1, C.hashBlock B2]
  have hrun : Blockchain.insert_block_with_validation C (bc.orphanAdd B2) B1 =
      (bcf, [C.hashBlock B1, C.hashBlock B2]) := by
    rw [hsecond, hch1, hfuel]
    rw [show ([B2].map GTask.blk ++ [GTask.prune]) = [GTask.blk B2, GTask.prune] from rfl]
    rw [go_succ_inr (totalOrphans bc.orphanage + 1)
      (goStep_blk_accepted [GTask.prune] [C.hashBlock B1] htryB2)]
    rw [hch2]
    rw [show (([] : List Block).map GTask.blk ++ GTask.prune :: [GTask.prune]) =
      [GTask.prune, GTask.prune] from rfl]
    rw [show ([C.hashBlock B1] ++ [C.hashBlock B2]) =
      [C.hashBlock B1, C.hashBlock B2] from rfl]
    rw [go_succ_inl (totalOrphans bc.orphanage) hgs]
  refine ⟨hfirst, ?_, ?_, ?_⟩
  · rw [hrun]
  · rw [hrun, hbcf, hBblocks,
      lookupA_insertA_ne _ _ _ _ (fun hc => hne hc.symm), lookupA_insertA_self]
    rfl
  · rw [hrun, hbcf, hBblocks, lookupA_insertA_self]
    rfl

/-- Witness for C1 at the empty call sequence. -/
theorem c1_witness :
    (lookupA (runCalls testCrypto []).hash_to_block (runCalls testCrypto []).tip).isSome :=
  (c1_engine_state_invariants testCrypto []).1.1

/-- Witness for C2: after inserting fixTx, the mempool entry for it is
signature-authentic. -/
theorem c2_witness :
    testCrypto.ed25519Verify fixTx.pub_key fixTx.raw_transaction fixTx.signature = true ∧
    testCrypto.h160FromPubkey fixTx.pub_key = fixTx.raw_transaction.from_addr :=
  (c2_mempool_soundness testCrypto [EngineCall.insertTx fixTx]
    (testCrypto.hashTx fixTx, fixTx) (by decide)).1

/-- Witness for C3: fixTx is newly accepted on a fresh chain. -/
theorem c3_witness :
    (Blockchain.insert_transaction_with_validation testCrypto
      (Blockchain.new testCrypto) fixTx).2 = true :=
  ((c3_insert_tx_validated testCrypto (Blockchain.new testCrypto) fixTx Block.genesis 0
    (State.ico testCrypto) (by decide)).1).mpr (by decide)

/-- Witness for C6: a nonzero-hash child of genesis is rejected on a fresh
chain. -/
theorem c6_witness :
    Blockchain.insert_block_with_validation testCrypto (Blockchain.new testCrypto) fixC6B =
      (Blockchain.new testCrypto, []) :=
  (c6_genesis_difficulty_rejects_all testCrypto fixC6B (by decide) (by decide)).2

/-- Witness for C7: inserting fixB1 after fixB2 was orphaned returns both
hashes in order. -/
theorem c7_witness :
    (Blockchain.insert_block_with_validation testCrypto
      (fixBase.orphanAdd fixB2) fixB1).2 =
      [testCrypto.hashBlock fixB1, testCrypto.hashBlock fixB2] :=
  (c7_orphan_promotion testCrypto fixBase fixB1 fixB2 fixParent 0 fixState fixState fixState
    (by decide) (by decide) (by decide) (by decide) (by decide) (by decide) (by decide)
    (by decide) (by decide) (by decide) (by decide)).2.1

/-- Witness for C8: a transaction exceeding the sender's balance fails and
leaves the state untouched. -/
theorem c8_witness :
    fixState.update_in_place fixTxBig = (fixState, false) :=
  (c8_update_in_place fixState fixTxBig).1 (by decide)

/-- Witness for C9 (amended): the second insertion of the orphan block
returns an empty novelty list. -/
theorem c9_witness :
    (Blockchain.insert_block_with_validation testCrypto
      (Blockchain.insert_block_with_validation testCrypto
        (Blockchain.new testCrypto) fixOrphan).1 fixOrphan).2 = [] :=
  (c9_insert_block_idempotent testCrypto (Blockchain.new testCrypto) fixOrphan).1

end Btc
